import Mathlib

/-!
Verification development for the esisdk resource-mapping layer.

The repository models remote REST entities as in-memory objects built from
four per-namespace component stores with per-key dirty tracking, a merged
attribute schema collected over the inheritance chain, query-parameter
translation, request preparation (full-body and JSON-Patch modes), a
capability gate on every operation, and a cycle-safe structural transform
(munchify / unmunchify) between nested plain structures and
attribute-accessible wrappers.

The structural transform is embedded directly from src/esi/utils.py.
The resource module itself ships outside src/ (only its unit tests are
present there), so its data model and operations are modelled from the
specification, with the unit tests under src/esi/tests/unit/test_resource.py
pinning behaviour where the specification text is loose; each such
definition carries a doc comment starting with "Modelled from the spec:".
-/

/-- Scalar JSON-like values carried by component stores, request bodies
and query parameters in the scenarios the claims exercise: null, booleans,
integers and strings. Nested structures (patch operation lists, resource
key envelopes) are represented by dedicated request-body constructors, and
the structural transform of utils.py has its own heap model below. -/
inductive JVal where
  | vnull : JVal
  | vbool : Bool → JVal
  | vint : Int → JVal
  | vstr : String → JVal
deriving DecidableEq

/-- Lookup of the first binding of a key in an association list, the
model of Python dictionary access (Python dictionaries have unique keys,
so the first binding is the binding). -/
def alGet {κ α : Type} [DecidableEq κ] : List (κ × α) → κ → Option α
  | [], _ => none
  | (k, v) :: rest, key => if k = key then some v else alGet rest key

/-- Update of a key in an association list: an existing binding keeps its
position and gets the new value, a new key is appended at the end. This is
the model of Python dictionary assignment, which preserves insertion
order. -/
def alSet {κ α : Type} [DecidableEq κ] : List (κ × α) → κ → α → List (κ × α)
  | [], key, val => [(key, val)]
  | (k, v) :: rest, key, val =>
    if k = key then (k, val) :: rest else (k, v) :: alSet rest key val

/-- Removal of every binding of a key, the model of Python `del d[key]`. -/
def alRemove {κ α : Type} [DecidableEq κ] : List (κ × α) → κ → List (κ × α)
  | [], _ => []
  | (k, v) :: rest, key =>
    if k = key then alRemove rest key else (k, v) :: alRemove rest key

/-- Keys of an association list in order. -/
def alKeys {κ α : Type} (l : List (κ × α)) : List κ := l.map Prod.fst

/-- Sequential update of an association list by a list of bindings, the
model of Python `dict.update`. -/
def alSets {κ α : Type} [DecidableEq κ] (l : List (κ × α)) (upd : List (κ × α)) :
    List (κ × α) :=
  upd.foldl (fun acc kv => alSet acc kv.1 kv.2) l

/-- Insertion into a set of keys represented as a duplicate-free list;
inserting a present key is a no-op. Models Python `set.add`. -/
def keyInsert (d : List String) (k : String) : List String :=
  if k ∈ d then d else d ++ [k]

/-- Modelled from the spec: a Component Store is an ordered mapping from
remote name to value plus a dirty set of remote names changed since the
last synchronization point (spec section 3, "Component Store"). -/
structure ComponentManager where
  attributes : List (String × JVal)
  dirty : List String
deriving DecidableEq

/-- Modelled from the spec: construction takes an initial mapping and a
synchronized flag; `synchronized = true` seeds the store with an empty
dirty set, `synchronized = false` marks every initial key dirty. -/
def ComponentManager.create (attributes : List (String × JVal))
    (synchronized : Bool) : ComponentManager :=
  { attributes := attributes
    dirty := if synchronized then [] else alKeys attributes }

/-- Modelled from the spec: setting a key whose value changes relative to
the store's knowledge (a previously absent key, or a different value)
stores the value and marks the key dirty; setting a key to its
already-stored value leaves the store unchanged. -/
def ComponentManager.setItem (cm : ComponentManager) (key : String)
    (value : JVal) : ComponentManager :=
  let changed :=
    match alGet cm.attributes key with
    | none => true
    | some orig => decide (orig ≠ value)
  if changed then
    { attributes := alSet cm.attributes key value
      dirty := keyInsert cm.dirty key }
  else cm

/-- Modelled from the spec: deleting a key removes it from the mapping and
marks the key dirty (so the dirty snapshot reports it with value null and
a commit can express the deletion). -/
def ComponentManager.delItem (cm : ComponentManager) (key : String) :
    ComponentManager :=
  { attributes := alRemove cm.attributes key
    dirty := keyInsert cm.dirty key }

/-- Modelled from the spec: `dirty` is a snapshot mapping of only the
changed keys and their current values; a deleted key reports null. -/
def ComponentManager.dirtySnapshot (cm : ComponentManager) :
    List (String × JVal) :=
  cm.dirty.map fun key => (key, (alGet cm.attributes key).getD JVal.vnull)

/-- Modelled from the spec: `clean()` clears the dirty set without
altering any stored value. -/
def ComponentManager.cleanStore (cm : ComponentManager) : ComponentManager :=
  { cm with dirty := [] }

example :
    (ComponentManager.create [("hey", JVal.vint 1), ("hi", JVal.vint 2)]
      false).dirty = ["hey", "hi"] := by decide

example :
    ((ComponentManager.create [("key", JVal.vstr "value")] true).setItem
      "key" (JVal.vstr "value")).dirty = [] := by decide

example :
    ((ComponentManager.create [] true).setItem "key"
      (JVal.vstr "value")).dirty = ["key"] := by decide

example :
    ((ComponentManager.create [("key", JVal.vstr "value")] true).delItem
      "key").dirtySnapshot = [("key", JVal.vnull)] := by decide

/-- Declared coercion target of an Attribute Descriptor: either a plain
type (an instance test plus a constructor) or a Formatter capability
(a serialize / deserialize pair), as in spec section 3. -/
inductive CompType where
  | plain (isInst : JVal → Bool) (construct : JVal → JVal) : CompType
  | formatter (serialize : JVal → JVal) (deserialize : JVal → JVal) : CompType

/-- Modelled from the spec: an Attribute Descriptor declares one logical
field with its remote name, optional coercion target, default value,
alternate-identity marker and alias (spec section 3). -/
structure Component where
  name : String
  ty : Option CompType
  default : JVal
  alternate_id : Bool
  aka : Option String

/-- Modelled from the spec: reading a descriptor through an owning
instance looks up the remote name in the backing store; an absent key
returns the default without coercion; a stored null is returned as null
without coercion (pinned by test_get_name_None, which the spec text of
section 4.1 omits); otherwise a Formatter deserializes, a plain type
constructs unless the raw value is already an instance, and an untyped
descriptor passes the raw value through. -/
def Component.getAttr (c : Component) (store : List (String × JVal)) : JVal :=
  match alGet store c.name with
  | none => c.default
  | some value =>
    if value = JVal.vnull then JVal.vnull
    else
      match c.ty with
      | none => value
      | some (CompType.plain isInst construct) =>
        if isInst value then value else construct value
      | some (CompType.formatter _ deserialize) => deserialize value

/-- Declared target of one query-parameter mapping entry: a bare string
is shorthand for a server-side name without coercion; the structured form
carries an optional server-side name (defaulting to the client-side key)
and an optional coercion. The coercion receives the value and the owning
resource type, here abstracted as a string tag. -/
inductive QPTarget where
  | bare (serverName : String) : QPTarget
  | structured (serverName : Option String) (ty : Option (JVal → String → JVal)) : QPTarget

/-- Server-side name of a query-parameter entry declared under a given
client-side key. -/
def QPTarget.nameFor (t : QPTarget) (key : String) : String :=
  match t with
  | QPTarget.bare n => n
  | QPTarget.structured n _ => n.getD key

/-- Coercion of a provided value by a query-parameter entry. -/
def QPTarget.applyType (t : QPTarget) (value : JVal) (resourceType : String) : JVal :=
  match t with
  | QPTarget.bare _ => value
  | QPTarget.structured _ none => value
  | QPTarget.structured _ (some ty) => ty value resourceType

/-- Modelled from the spec: the Query Parameter Translator holds a
declared mapping from client-facing argument name to server-side target
(spec section 4.4). -/
structure QueryParameters where
  mapping : List (String × QPTarget)

/-- Modelled from the spec: construction merges the always-present
built-in pagination parameters (`limit`, `marker`) into every declared
mapping implicitly, then the bare positional names, then the structured
mappings. -/
def QueryParameters.create (names : List String)
    (mappings : List (String × QPTarget)) : QueryParameters :=
  { mapping :=
      alSets
        (alSets [("limit", QPTarget.bare "limit"), ("marker", QPTarget.bare "marker")]
          (names.map fun n => (n, QPTarget.bare n)))
        mappings }

/-- Modelled from the spec: `_transpose` walks the declared mapping;
arguments absent from the declared mapping are dropped silently, present
arguments are renamed to their server-side names and coerced when a type
is declared. -/
def QueryParameters.transpose (qp : QueryParameters)
    (query : List (String × JVal)) (resourceType : String) :
    List (String × JVal) :=
  qp.mapping.foldl
    (fun result kt =>
      match alGet query kt.1 with
      | none => result
      | some provided =>
        alSet result (kt.2.nameFor kt.1) (kt.2.applyType provided resourceType))
    []

/-- Modelled from the spec: one Attribute Descriptor declaration in an
inheritance chain, as a pair of local (client-side) name and remote
(server-side) name. A chain is the concatenation of every class's own
declarations in method-resolution order, most derived first. -/
def SchemaChain : Type := List (String × String)

/-- Modelled from the spec: schema collection walks the inheritance chain
and builds the reverse (remote name to local name) mapping; a local name
already collected from a more-derived class is skipped, so a base class's
later-processed mapping never overwrites the subclass's override (spec
section 4.5). -/
def collectReverse : List (String × String) → List String →
    List (String × String) → List (String × String)
  | [], _, mapping => mapping
  | (localName, remoteName) :: rest, ready, mapping =>
    if localName ∈ ready then collectReverse rest ready mapping
    else collectReverse rest (localName :: ready) (alSet mapping remoteName localName)

/-- Reverse mapping (remote name to local name) of a chain. -/
def bodyMapping (chain : List (String × String)) : List (String × String) :=
  collectReverse chain [] []

/-- Forward lookup (local name to remote name) over a chain: ordinary
attribute lookup finds the most-derived declaration first. -/
def lookupForward (chain : List (String × String)) (localName : String) :
    Option String :=
  alGet chain localName

example :
    bodyMapping [("name", "MyName"), ("id", "MyID"), ("name", "name"), ("id", "id")]
      = [("MyName", "name"), ("MyID", "id")] := by decide

/-- Modelled from the spec: a body Attribute Descriptor as declared on a
Resource class, reduced to the parts identity resolution and
classification need: local name, remote name and the alternate-identity
marker. -/
structure BodyDescriptor where
  localName : String
  remoteName : String
  alternate_id : Bool
deriving DecidableEq

/-- Modelled from the spec: `_alternate_id` returns the remote name of
the body descriptor marked `alternate_id`, or the empty string when no
descriptor is marked (test__alternate_id_None pins the empty-string
fallback). -/
def alternateIdRemote (schema : List BodyDescriptor) : String :=
  match schema.find? (fun d => d.alternate_id) with
  | some d => d.remoteName
  | none => ""

/-- Modelled from the spec: classification of a flat keyword mapping into
the body namespace; a key matching a descriptor's local name, or else a
descriptor's remote name, is stored under the remote name; unmatched keys
are dropped under the default unknown-attribute policy (spec section
4.5, steps 1 and 4). -/
def consumeBodyAttrs (schema : List BodyDescriptor)
    (attrs : List (String × JVal)) : List (String × JVal) :=
  attrs.foldl
    (fun body kv =>
      match schema.find? (fun d => d.localName = kv.1) with
      | some d => alSet body d.remoteName kv.2
      | none =>
        match schema.find? (fun d => d.remoteName = kv.1) with
        | some d => alSet body d.remoteName kv.2
        | none => body)
    []

/-- Modelled from the spec: the effective identity of a Resource is the
value under the literal `id` key when present, else the value under the
alternate-identity field's remote name (spec section 3 invariant). -/
def resourceGetId (schema : List BodyDescriptor)
    (body : List (String × JVal)) : Option JVal :=
  match alGet body "id" with
  | some v => some v
  | none => alGet body (alternateIdRemote schema)

example :
    resourceGetId
      [⟨"foo", "foo", false⟩, ⟨"bar", "bar", true⟩, ⟨"id", "id", false⟩]
      (consumeBodyAttrs
        [⟨"foo", "foo", false⟩, ⟨"bar", "bar", true⟩, ⟨"id", "id", false⟩]
        [("bar", JVal.vstr "bunnies")])
      = some (JVal.vstr "bunnies") := by decide

example :
    resourceGetId
      [⟨"foo", "foo", false⟩, ⟨"bar", "bar", true⟩, ⟨"id", "id", false⟩]
      (consumeBodyAttrs
        [⟨"foo", "foo", false⟩, ⟨"bar", "bar", true⟩, ⟨"id", "id", false⟩]
        [("id", JVal.vstr "chickens"), ("bar", JVal.vstr "bunnies")])
      = some (JVal.vstr "chickens") := by decide

/-- Python truthiness of a scalar value: null, false, zero and the empty
string are falsy. -/
def jvalTruthy : JVal → Bool
  | JVal.vnull => false
  | JVal.vbool b => b
  | JVal.vint n => decide (n ≠ 0)
  | JVal.vstr s => decide (s ≠ "")

/-- Rendering of a scalar as Python `str` renders it when joined into a
URL path. -/
def jvalToUrlStr : JVal → String
  | JVal.vnull => "None"
  | JVal.vbool b => if b then "True" else "False"
  | JVal.vint n => toString n
  | JVal.vstr s => s

/-- Removal of leading and trailing slash characters, as Python
`str.strip` with a slash argument does. -/
def stripSlashes (s : String) : String :=
  String.mk
    (((s.toList.dropWhile fun c => c = '/').reverse.dropWhile fun c => c = '/').reverse)

/-- The utils.urljoin of two components: each component is stripped of
leading and trailing slashes and the results are joined with a single
slash (embedded from src/esi/utils.py, urljoin). -/
def urljoin2 (a b : String) : String :=
  stripSlashes a ++ "/" ++ stripSlashes b

example : urljoin2 "/something" "id" = "something/id" := by decide

/-- One RFC-6902-style patch operation `{op, path, value?}`; remove
operations carry no value. -/
structure PatchOp where
  op : String
  path : String
  value : Option JVal
deriving DecidableEq

/-- Modelled from the spec: patch mode computes RFC-6902-style operations
by diffing the original, synchronized body snapshot against the current
body: a key of the original whose current value differs yields a replace,
a key of the original now absent (deleted, hence dirty with value null)
yields a remove, and a current key absent from the original yields an add
(spec sections 4.5 and 8; the patch laws of section 8 pin the diff to
value differences, so an untouched key yields no operation). Operations
are emitted originals first; the behaviour the spec pins produces
single-operation lists, for which the order is immaterial. -/
def makePatch (original current : List (String × JVal)) : List PatchOp :=
  original.foldr
    (fun kv acc =>
      match alGet current kv.1 with
      | some nv =>
        if nv = kv.2 then acc
        else { op := "replace", path := "/" ++ kv.1, value := some nv } :: acc
      | none => { op := "remove", path := "/" ++ kv.1, value := none } :: acc)
    []
  ++ current.foldr
    (fun kv acc =>
      match alGet original kv.1 with
      | some _ => acc
      | none => { op := "add", path := "/" ++ kv.1, value := some kv.2 } :: acc)
    []

/-- Body of a prepared request: a plain mapping of dirty fields, a
mapping nested one level under a resource-key envelope, or a list of
patch operations. -/
inductive ReqBody where
  | obj (fields : List (String × JVal)) : ReqBody
  | keyed (key : String) (fields : List (String × JVal)) : ReqBody
  | ops (operations : List PatchOp) : ReqBody
deriving DecidableEq

/-- The transient Request triple assembled immediately before a wire
call (spec section 3). -/
structure RequestT where
  url : String
  body : ReqBody
  headers : List (String × JVal)
deriving DecidableEq

/-- Modelled from the spec: the original body snapshot kept for
JSON-Patch diffing. A synchronized load snapshots the full body; a
never-synchronized resource records only its identity value when that
value is truthy (forced by the patch add law of spec section 8: a
resource built via new with an id and one field yields exactly one add
operation for that field and none for the id). Without commit_jsonpatch
no snapshot is kept. -/
def originalBodyFor (commit_jsonpatch : Bool) (synchronized : Bool)
    (bodyAttrs : List (String × JVal)) (idKey : String) :
    List (String × JVal) :=
  if commit_jsonpatch then
    if synchronized then bodyAttrs
    else
      match alGet bodyAttrs idKey with
      | some i => if jvalTruthy i then [(idKey, i)] else []
      | none => []
  else []

/-- Modelled from the spec: the state of a Resource needed by request
preparation: resolved base path, behaviour flags, the body and header
component stores, and the original body snapshot. The claims exercise
placeholder-free base paths, so the path is kept already resolved; the
uri store and placeholder resolution are outside the verified fragment. -/
structure ResourceState where
  base_path : String
  commit_jsonpatch : Bool
  resource_key : Option String
  body : ComponentManager
  header : ComponentManager
  original_body : List (String × JVal)

/-- Construction of a resource from already-classified body and header
attributes; `synchronized = false` models `new` (all supplied fields
dirty), `synchronized = true` models `existing` (fields clean). -/
def ResourceState.make (base_path : String) (commit_jsonpatch : Bool)
    (resource_key : Option String) (bodyAttrs headerAttrs : List (String × JVal))
    (synchronized : Bool) : ResourceState :=
  { base_path := base_path
    commit_jsonpatch := commit_jsonpatch
    resource_key := resource_key
    body := ComponentManager.create bodyAttrs synchronized
    header := ComponentManager.create headerAttrs synchronized
    original_body := originalBodyFor commit_jsonpatch synchronized bodyAttrs "id" }

/-- Mutation of one body field through the descriptor set path, which
delegates to the body store and updates dirty tracking. -/
def ResourceState.setBody (r : ResourceState) (key : String) (value : JVal) :
    ResourceState :=
  { r with body := r.body.setItem key value }

/-- Deletion of one body field, which removes the stored value and marks
the key dirty. -/
def ResourceState.delBody (r : ResourceState) (key : String) : ResourceState :=
  { r with body := r.body.delItem key }

/-- The identity value of a resource: the stored value under the literal
id key. The resources of the request-preparation claims identify by the
literal id field; alternate identity is modelled with resourceGetId
above. -/
def ResourceState.getId (r : ResourceState) : Option JVal :=
  alGet r.body.attributes "id"

/-- Failure kinds of request preparation. -/
inductive PrepErr where
  | invalidRequest : PrepErr
deriving DecidableEq

/-- Decidable equality of Except results, used to evaluate prepared
requests on concrete inputs. -/
instance {ε α : Type} [DecidableEq ε] [DecidableEq α] :
    DecidableEq (Except ε α) := fun a b =>
  match a, b with
  | Except.error e, Except.error f =>
    decidable_of_iff (e = f)
      (Iff.intro (fun h => by rw [h]) (fun h => by injection h))
  | Except.error _, Except.ok _ => isFalse (fun h => by injection h)
  | Except.ok _, Except.error _ => isFalse (fun h => by injection h)
  | Except.ok x, Except.ok y =>
    decidable_of_iff (x = y)
      (Iff.intro (fun h => by rw [h]) (fun h => by injection h))

/-- Modelled from the spec: `_prepare_request` builds the request body
(dirty-field snapshot in full-body mode, optionally nested under the
resource key; patch diff in patch mode, never enveloped), takes the dirty
header snapshot, and appends the identity value to the resolved base path
via urljoin when `requires_id`, signalling a missing-identity condition
when no identity value is resolvable (spec section 4.5). -/
def ResourceState.prepareRequest (r : ResourceState) (requires_id patch prepend_key : Bool) :
    Except PrepErr RequestT :=
  let body : ReqBody :=
    if patch then ReqBody.ops (makePatch r.original_body r.body.attributes)
    else
      let b := r.body.dirtySnapshot
      if prepend_key then
        match r.resource_key with
        | some k => ReqBody.keyed k b
        | none => ReqBody.obj b
      else ReqBody.obj b
  let headers := r.header.dirtySnapshot
  if requires_id then
    match r.getId with
    | none => Except.error PrepErr.invalidRequest
    | some i =>
      if i = JVal.vnull then Except.error PrepErr.invalidRequest
      else
        Except.ok
          { url := urljoin2 r.base_path (jvalToUrlStr i)
            body := body
            headers := headers }
  else Except.ok { url := r.base_path, body := body, headers := headers }

example :
    (ResourceState.make "/something" false none
        [("id", JVal.vstr "id"), ("x", JVal.vstr "body")]
        [("y", JVal.vstr "header")] false).prepareRequest true false false
      = Except.ok
          { url := "something/id"
            body := ReqBody.obj [("id", JVal.vstr "id"), ("x", JVal.vstr "body")]
            headers := [("y", JVal.vstr "header")] } := by decide

example :
    ((ResourceState.make "/something" true none
        [("id", JVal.vstr "id"), ("x", JVal.vint 1), ("y", JVal.vint 2)]
        [] true).setBody "x" (JVal.vint 3)).prepareRequest true true false
      = Except.ok
          { url := "something/id"
            body := ReqBody.ops [{ op := "replace", path := "/x", value := some (JVal.vint 3) }]
            headers := [] } := by decide

example :
    (ResourceState.make "/something" true none
        [("id", JVal.vstr "id"), ("x", JVal.vint 1)]
        [] false).prepareRequest true true false
      = Except.ok
          { url := "something/id"
            body := ReqBody.ops [{ op := "add", path := "/x", value := some (JVal.vint 1) }]
            headers := [] } := by decide

/-- Modelled from the spec: the six per-operation capability flags of a
Resource class. -/
structure Capabilities where
  allow_create : Bool
  allow_fetch : Bool
  allow_commit : Bool
  allow_delete : Bool
  allow_head : Bool
  allow_list : Bool
deriving DecidableEq

/-- Error kinds the operation entry points signal before any transport
interaction: the not-permitted condition of the capability gate and the
missing-identity condition of request preparation. -/
inductive OpError where
  | methodNotSupported : OpError
  | invalidRequest : OpError
deriving DecidableEq

/-- Outcome of invoking an operation: the signalled error or success,
paired with the list of requests handed to the transport collaborator, in
order. An empty list means the transport was never touched. -/
def OpOutcome : Type := Except OpError Unit × List RequestT

/-- Transport collaborator: receives a prepared request. The response is
irrelevant to the claims, so only the call itself is recorded. -/
def Session : Type := RequestT → Unit

/-- One capability-gated operation body shared by create, fetch, delete
and head: the gate signals not-permitted before any transport
interaction when the flag is false; otherwise the request is prepared and
handed to the transport (spec sections 4.5 and 7). -/
def gatedCall (allowed : Bool) (r : ResourceState) (requires_id : Bool)
    (session : Session) : OpOutcome :=
  if allowed then
    match r.prepareRequest requires_id false true with
    | Except.error _ => (Except.error OpError.invalidRequest, [])
    | Except.ok req =>
      let _ := session req
      (Except.ok (), [req])
  else (Except.error OpError.methodNotSupported, [])

/-- Modelled from the spec: `create` checks allow_create first. -/
def opCreate (caps : Capabilities) (r : ResourceState) (session : Session) :
    OpOutcome :=
  gatedCall caps.allow_create r false session

/-- Modelled from the spec: `fetch` checks allow_fetch first. -/
def opFetch (caps : Capabilities) (r : ResourceState) (session : Session) :
    OpOutcome :=
  gatedCall caps.allow_fetch r true session

/-- Modelled from the spec: `delete` checks allow_delete first. -/
def opDelete (caps : Capabilities) (r : ResourceState) (session : Session) :
    OpOutcome :=
  gatedCall caps.allow_delete r true session

/-- Modelled from the spec: `head` checks allow_head first. -/
def opHead (caps : Capabilities) (r : ResourceState) (session : Session) :
    OpOutcome :=
  gatedCall caps.allow_head r true session

/-- Modelled from the spec: consuming the `list` generator checks
allow_list before the first paginated fetch. -/
def opList (caps : Capabilities) (r : ResourceState) (session : Session) :
    OpOutcome :=
  gatedCall caps.allow_list r false session

/-- Modelled from the spec: `commit` first treats "nothing is dirty" as a
no-op success that returns the object unchanged without issuing a
request, and only then checks allow_commit (spec section 4.5; the unit
test test_cant_do_anything fakes a dirty body for exactly this reason). -/
def opCommit (caps : Capabilities) (r : ResourceState) (session : Session) :
    OpOutcome :=
  if r.body.dirty = [] ∧ r.header.dirty = [] then (Except.ok (), [])
  else gatedCall caps.allow_commit r true session

/-!
Structural transform (munchify / unmunchify), embedded from
src/esi/utils.py. Python object graphs are modelled explicitly: a heap
maps addresses to nodes, a node is a scalar, a mapping, a list or a
tuple whose children are addresses, and object identity is address
equality. The converter carries the `seen` table of the source (input
address to output address), the output heap built so far and the next
fresh output address; `id(obj)` is the address, so cyclic inputs are
representable. The recursion is driven by a fuel parameter; running out
of fuel yields none, and the termination theorem exhibits sufficient
fuel. A single step function covers both directions: munchify builds
attribute-accessible mappings (`isMunch = true`), unmunchify plain
dictionaries (`isMunch = false`); the two source functions differ in
nothing else.
-/

/-- Scalar payloads of the structural transform, passed through
unchanged. -/
inductive SVal where
  | sNone : SVal
  | sBool : Bool → SVal
  | sInt : Int → SVal
  | sStr : String → SVal
deriving DecidableEq

/-- Input heap nodes: scalars, mappings, lists and tuples with children
given by address. -/
inductive INode where
  | scalar : SVal → INode
  | mapN : List (String × Nat) → INode
  | listN : List Nat → INode
  | tupN : List Nat → INode
deriving DecidableEq

/-- Output heap nodes; a mapping node records whether it is an
attribute-accessible Munch (munchify) or a plain dictionary
(unmunchify). -/
inductive ONode where
  | scalar : SVal → ONode
  | mapN : Bool → List (String × Nat) → ONode
  | listN : List Nat → ONode
  | tupN : List Nat → ONode
deriving DecidableEq

/-- Converter state: the `seen` table from input address to output
address, the output heap, and the next fresh output address. -/
structure MState where
  seen : List (Nat × Nat)
  out : List (Nat × ONode)
  next : Nat
deriving DecidableEq

/-- Pending work item: `conv a` is munchify_cycles on input address `a`;
`post po ia` is post_munchify of the already-converted output `po`
against input address `ia`, the form the tuple branch recurses with. -/
inductive MTask where
  | conv : Nat → MTask
  | post : Nat → Nat → MTask
deriving DecidableEq

/-- Write of one converted field into the mapping output node `o`,
modelling one step of `partial.update`. A non-mapping target cannot
arise in runs from an empty state (the source would raise there); the
model leaves the state unchanged. -/
def mapSetOut (st : MState) (o : Nat) (k : String) (v : Nat) : MState :=
  match alGet st.out o with
  | some (ONode.mapN b fields) =>
    { st with out := alSet st.out o (ONode.mapN b (alSet fields k v)) }
  | _ => st

/-- Append of one converted item to the list output node `o`, modelling
one step of `partial.extend`. -/
def listExtendOut (st : MState) (o : Nat) (v : Nat) : MState :=
  match alGet st.out o with
  | some (ONode.listN items) =>
    { st with out := alSet st.out o (ONode.listN (items ++ [v])) }
  | _ => st

/-- Conversion of the fields of a mapping in declaration order, writing
each converted child into the output node `o` as `partial.update`
consumes the generator. `g` is the converter at the remaining fuel. -/
def postFieldsGo (g : Nat → MState → Option (Nat × MState)) (o : Nat) :
    List (String × Nat) → MState → Option MState
  | [], st => some st
  | (k, c) :: rest, st =>
    match g c st with
    | none => none
    | some (oc, st₁) => postFieldsGo g o rest (mapSetOut st₁ o k oc)

/-- Conversion of the items of a list in order, appending each converted
item to the output node `o` as `partial.extend` consumes the
generator. -/
def postItemsGo (g : Nat → MState → Option (Nat × MState)) (o : Nat) :
    List Nat → MState → Option MState
  | [], st => some st
  | c :: rest, st =>
    match g c st with
    | none => none
    | some (oc, st₁) => postItemsGo g o rest (listExtendOut st₁ o oc)

/-- Conversion of the items of a tuple during its pre phase, collecting
the converted addresses before the tuple itself is registered. -/
def convItemsGo (g : Nat → MState → Option (Nat × MState)) :
    List Nat → MState → Option (List Nat × MState)
  | [], st => some ([], st)
  | c :: rest, st =>
    match g c st with
    | none => none
    | some (oc, st₁) =>
      match convItemsGo g rest st₁ with
      | none => none
      | some (ocs, st₂) => some (oc :: ocs, st₂)

/-- The pair walk of the tuple branch of post_munchify: each converted
item is post-processed against its input counterpart. `p` is the post
handler at the remaining fuel. -/
def postPairsGo (p : Nat → Nat → MState → Option (Nat × MState)) :
    List (Nat × Nat) → MState → Option MState
  | [], st => some st
  | (po, ia) :: rest, st =>
    match p po ia st with
    | none => none
    | some (_, st₁) => postPairsGo p rest st₁

/-- One fuel level of the converter, embedded from munchify_cycles,
pre_munchify and post_munchify of src/esi/utils.py: a seen input address
returns its recorded output at once; otherwise a mapping or list
allocates and registers an empty shell before converting children (so a
cycle resolves to the shell), a tuple converts its children first, is
then registered and post-walked pairwise, and a scalar passes through
(registered, with a fresh output address standing for the unchanged
object). `post po ia` re-dispatches on the input node as the source
post_munchify does on `obj`; on a tuple it walks the recorded output
items zipped with the input items, truncating like Python zip. -/
def mgoStep (heap : List (Nat × INode)) (isMunch : Bool)
    (g : MTask → MState → Option (Nat × MState)) :
    MTask → MState → Option (Nat × MState)
  | MTask.conv a, st =>
    match alGet st.seen a with
    | some o => some (o, st)
    | none =>
      match alGet heap a with
      | none => none
      | some (INode.scalar v) =>
        let o := st.next
        some (o,
          { seen := (a, o) :: st.seen
            out := st.out ++ [(o, ONode.scalar v)]
            next := o + 1 })
      | some (INode.mapN fields) =>
        let o := st.next
        let st₁ : MState :=
          { seen := (a, o) :: st.seen
            out := st.out ++ [(o, ONode.mapN isMunch [])]
            next := o + 1 }
        match postFieldsGo (fun c s => g (MTask.conv c) s) o fields st₁ with
        | none => none
        | some st₂ => some (o, st₂)
      | some (INode.listN items) =>
        let o := st.next
        let st₁ : MState :=
          { seen := (a, o) :: st.seen
            out := st.out ++ [(o, ONode.listN [])]
            next := o + 1 }
        match postItemsGo (fun c s => g (MTask.conv c) s) o items st₁ with
        | none => none
        | some st₂ => some (o, st₂)
      | some (INode.tupN items) =>
        match convItemsGo (fun c s => g (MTask.conv c) s) items st with
        | none => none
        | some (ocs, st₁) =>
          let o := st₁.next
          let st₂ : MState :=
            { seen := (a, o) :: st₁.seen
              out := st₁.out ++ [(o, ONode.tupN ocs)]
              next := o + 1 }
          match postPairsGo (fun po ia s => g (MTask.post po ia) s) (ocs.zip items) st₂ with
          | none => none
          | some st₃ => some (o, st₃)
  | MTask.post po ia, st =>
    match alGet heap ia with
    | none => none
    | some (INode.scalar _) => some (po, st)
    | some (INode.mapN fields) =>
      match postFieldsGo (fun c s => g (MTask.conv c) s) po fields st with
      | none => none
      | some st₁ => some (po, st₁)
    | some (INode.listN items) =>
      match postItemsGo (fun c s => g (MTask.conv c) s) po items st with
      | none => none
      | some st₁ => some (po, st₁)
    | some (INode.tupN items) =>
      match alGet st.out po with
      | some (ONode.tupN ocs) =>
        match postPairsGo (fun p i s => g (MTask.post p i) s) (ocs.zip items) st with
        | none => none
        | some st₁ => some (po, st₁)
      | _ => some (po, st)

/-- The fuel-indexed converter: munchify is `mgo heap true`, unmunchify
is `mgo heap false`, both started with `MTask.conv root` from the empty
state. -/
def mgo (heap : List (Nat × INode)) (isMunch : Bool) :
    Nat → MTask → MState → Option (Nat × MState)
  | 0 => fun _ _ => none
  | Nat.succ f => mgoStep heap isMunch (mgo heap isMunch f)

/-- The empty converter state a top-level munchify or unmunchify call
starts from. -/
def mstate0 : MState := { seen := [], out := [], next := 0 }

/-- Addresses of the direct children of an input node. -/
def INode.childAddrs : INode → List Nat
  | INode.scalar _ => []
  | INode.mapN fields => fields.map Prod.snd
  | INode.listN items => items
  | INode.tupN items => items

/-- Addresses bound in a heap. -/
def heapKeys (heap : List (Nat × INode)) : List Nat := heap.map Prod.fst

/-- A heap is closed when every child address of every node is itself
bound, as Python object graphs always are. -/
def ClosedHeap (heap : List (Nat × INode)) : Prop :=
  ∀ p ∈ heap, ∀ c ∈ p.2.childAddrs, c ∈ heapKeys heap

/-- Tuple acyclicity, witnessed by a rank bounded by `R` that strictly
decreases from a tuple to its items. Python tuples are built after their
items and can never participate in a reference cycle, so every Python
heap admits such a rank. -/
def TupleRanked (heap : List (Nat × INode)) (rk : Nat → Nat) (R : Nat) : Prop :=
  (∀ a ∈ heapKeys heap, rk a ≤ R) ∧
    ∀ p ∈ heap, ∀ items, p.2 = INode.tupN items → ∀ c ∈ items, rk c < rk p.1

/-- Count of the addresses of a list not bound in a seen table. -/
def countNone (seen : List (Nat × Nat)) : List Nat → Nat
  | [] => 0
  | a :: rest =>
    (if (alGet seen a).isNone then 1 else 0) + countNone seen rest

/-- Count of heap addresses not yet registered in the seen table. -/
def unseenCount (heap : List (Nat × INode)) (st : MState) : Nat :=
  countNone st.seen (heapKeys heap)

/-- Domain growth of the seen table: everything unregistered afterwards
was already unregistered before. Unlike SeenLe this tolerates the
re-registration a tuple on a reference cycle performs. -/
def SeenDomLe (s₁ s₂ : MState) : Prop :=
  ∀ x, (alGet s₂.seen x).isNone → (alGet s₁.seen x).isNone

/-- Depth measure of a pending task: enough fuel to run a task is one
more than its measure. The band width 2R+6 dominates every rank
adjustment, so registering one address strictly shrinks the measure
across a band. -/
def taskMeasure (heap : List (Nat × INode)) (rk : Nat → Nat) (R : Nat) :
    MTask → MState → Nat
  | MTask.conv a, st =>
    if (alGet st.seen a).isSome then 1
    else
      match alGet heap a with
      | some (INode.tupN _) => unseenCount heap st * (2 * R + 6) + rk a + 2
      | _ => unseenCount heap st * (2 * R + 6) + 1
  | MTask.post _ ia, st => unseenCount heap st * (2 * R + 6) + R + 3 + rk ia

/-- Preservation of recorded conversions: every binding of the first
seen table is still looked up unchanged in the second. -/
def SeenLe (s₁ s₂ : MState) : Prop :=
  ∀ x ox, alGet s₁.seen x = some ox → alGet s₂.seen x = some ox

/-- No reference cycle of the heap passes through a tuple, witnessed by
a rank that strictly decreases from a tuple to its items and never
increases from any other container to its children. A tuple can sit on
a cycle only when a mutable container of the cycle was mutated after
the tuple's construction; for such heaps no such rank exists. -/
def RankSafe (heap : List (Nat × INode)) (rk : Nat → Nat) : Prop :=
  ∀ p ∈ heap, ∀ c ∈ p.2.childAddrs,
    match p.2 with
    | INode.tupN _ => rk c < rk p.1
    | _ => rk c ≤ rk p.1

/-- Recorded output addresses are below the allocation counter. -/
def SeenLtNext (st : MState) : Prop :=
  ∀ x p, alGet st.seen x = some p → p < st.next

/-- Distinct inputs are recorded with distinct outputs. -/
def InjSeen (st : MState) : Prop :=
  ∀ x y p, alGet st.seen x = some p → alGet st.seen y = some p → x = y

/-- Allocated output addresses are below the allocation counter. -/
def OutLtNext (st : MState) : Prop :=
  ∀ p n, alGet st.out p = some n → p < st.next

/-- Every tuple node of the output heap is the recorded conversion of an
input tuple, its items pointwise the recorded conversions of the input
items. -/
def STupInv (heap : List (Nat × INode)) (st : MState) : Prop :=
  ∀ p ocs, alGet st.out p = some (ONode.tupN ocs) →
    ∃ t is', alGet st.seen t = some p ∧
      alGet heap t = some (INode.tupN is') ∧
      List.Forall₂ (fun oc ic => alGet st.seen ic = some oc) ocs is'

/-- State invariants of every run from the empty state. -/
def GoodState (heap : List (Nat × INode)) (st : MState) : Prop :=
  SeenLtNext st ∧ InjSeen st ∧ OutLtNext st ∧ STupInv heap st

/-- The protected self-reference entry: input `a` is recorded as output
`o`, output `o` is a mapping node, and its binding of the field `k`, if
already written, is `o` itself. -/
def ProtectO (a : Nat) (k : String) (o : Nat) (st : MState) : Prop :=
  alGet st.seen a = some o ∧
  ∃ b flds, alGet st.out o = some (ONode.mapN b flds) ∧
    ∀ v, alGet flds k = some v → v = o

/-- The field `k` of the mapping output node `o` is written and points
back to `o`. -/
def KIsO (k : String) (o : Nat) (st : MState) : Prop :=
  ∃ b flds, alGet st.out o = some (ONode.mapN b flds) ∧
    alGet flds k = some o

/-- Rank of the input address a task works on. -/
def taskRank (rk : Nat → Nat) : MTask → Nat
  | MTask.conv a => rk a
  | MTask.post _ ia => rk ia

/-- Addresses a task dereferences in the input heap are bound. -/
def TaskAddrOK (heap : List (Nat × INode)) : MTask → Prop
  | MTask.conv a => a ∈ heapKeys heap
  | MTask.post _ ia => ia ∈ heapKeys heap

/-- Post tasks pair an input with its recorded conversion, the only form
in which the source ever spawns them. -/
def TaskSeenOK (st : MState) : MTask → Prop
  | MTask.conv _ => True
  | MTask.post po ia => alGet st.seen ia = some po

example :
    mgo [(0, INode.mapN [("self", 0), ("v", 1)]), (1, INode.scalar (SVal.sInt 5))]
      true 14 (MTask.conv 0) mstate0
      = some (0,
          { seen := [(1, 1), (0, 0)]
            out := [(0, ONode.mapN true [("self", 0), ("v", 1)]), (1, ONode.scalar (SVal.sInt 5))]
            next := 2 }) := by decide

/-- The resource of test__prepare_request_with_id: an id, one body field
with remote name x and one header field with remote name y, constructed
unsynchronized so every field is dirty. -/
def c1Resource : ResourceState :=
  ResourceState.make "/something" false none
    [("id", JVal.vstr "id"), ("x", JVal.vstr "body")]
    [("y", JVal.vstr "header")] false

/-- The same resource after the caller discards id from the body dirty
set, the marked-clean scenario of
test__prepare_request_with_id_marked_clean. -/
def c1ResourceClean : ResourceState :=
  { c1Resource with
      body := { attributes := c1Resource.body.attributes, dirty := ["x"] } }

/-- The binding of one key in the plain-object body of a successfully
prepared request, none when preparation failed or the body is not a
plain object. -/
def requestBodyField (res : Except PrepErr RequestT) (k : String) :
    Option JVal :=
  match res with
  | Except.ok req =>
    match req.body with
    | ReqBody.obj fields => alGet fields k
    | _ => none
  | Except.error _ => none

/-- Capabilities with all six operation flags false, the class of
test_cant_do_anything. -/
def capsNone : Capabilities :=
  { allow_create := false
    allow_fetch := false
    allow_commit := false
    allow_delete := false
    allow_head := false
    allow_list := false }

/-- A synchronized (hence fully clean) resource used to exercise the
commit no-op path. -/
def c7CleanResource : ResourceState :=
  ResourceState.make "/something" false none [("id", JVal.vstr "a")] [] true

/-!
Supporting lemmas about association lists and stores.
-/

/-- Input heap of the concrete self-referential mapping
d = \x7b"self": d, "v": 5\x7d the C8 witness converts: address 0 is the
mapping, whose field self refers back to address 0, and address 1 the
scalar 5. -/
def c8SelfHeap : List (Nat × INode) :=
  [(0, INode.mapN [("self", 0), ("v", 1)]), (1, INode.scalar (SVal.sInt 5))]

/-- Converter state after munchify of c8SelfHeap: both input addresses
registered, the output mapping (address 0) binding self to itself. -/
def c8StateA : MState :=
  { seen := [(1, 1), (0, 0)]
    out := [(0, ONode.mapN true [("self", 0), ("v", 1)]),
      (1, ONode.scalar (SVal.sInt 5))]
    next := 2 }

/-- Input heap with a reference cycle through a tuple, as Python builds
with l = []; t = (l,); d = \x7b"l": l\x7d ... by appending d to l and
wrapping t around d: address 0 is a tuple holding the mapping 1, whose
field l is the list 2, whose single item is the tuple 0 again. -/
def c8CycleHeap : List (Nat × INode) :=
  [(0, INode.tupN [1]), (1, INode.mapN [("l", 2)]), (2, INode.listN [0])]

theorem truthy_ne_null {i : JVal} (h : jvalTruthy i = true) :
    i ≠ JVal.vnull := by
  intro he
  subst he
  simp [jvalTruthy] at h

theorem alGet_mem {κ α : Type} [DecidableEq κ] {l : List (κ × α)} {k : κ} {v : α}
    (h : alGet l k = some v) : (k, v) ∈ l := by
  induction l with
  | nil => simp [alGet] at h
  | cons p rest ih =>
    obtain ⟨k', v'⟩ := p
    by_cases hk : k' = k
    · subst hk
      simp [alGet] at h
      subst h
      exact List.mem_cons_self _ _
    · simp [alGet, hk] at h
      exact List.mem_cons_of_mem _ (ih h)

theorem alGet_isSome_of_mem_keys {κ α : Type} [DecidableEq κ]
    {l : List (κ × α)} {k : κ} (h : k ∈ alKeys l) : (alGet l k).isSome := by
  induction l with
  | nil => simp [alKeys] at h
  | cons p rest ih =>
    obtain ⟨k', v'⟩ := p
    by_cases hk : k' = k
    · simp [alGet, hk]
    · simp [alKeys] at h
      rcases h with h | h
      · exact absurd h.symm hk
      · simpa [alGet, hk] using ih (by simpa [alKeys] using h)

theorem mem_keys_of_alGet {κ α : Type} [DecidableEq κ]
    {l : List (κ × α)} {k : κ} {v : α} (h : alGet l k = some v) :
    k ∈ alKeys l := by
  have := alGet_mem h
  exact List.mem_map_of_mem Prod.fst this

theorem alGet_append_left {κ α : Type} [DecidableEq κ]
    {l : List (κ × α)} (l' : List (κ × α)) {k : κ} {v : α}
    (h : alGet l k = some v) : alGet (l ++ l') k = some v := by
  induction l with
  | nil => simp [alGet] at h
  | cons p rest ih =>
    obtain ⟨k', v'⟩ := p
    by_cases hk : k' = k
    · simp_all [alGet]
    · simp [alGet, hk] at h ⊢
      exact ih h

theorem alGet_append_of_ne {κ α : Type} [DecidableEq κ]
    {l : List (κ × α)} {k k' : κ} {v : α} (hne : k' ≠ k) :
    alGet (l ++ [(k', v)]) k = alGet l k := by
  induction l with
  | nil => simp [alGet, hne]
  | cons p rest ih =>
    obtain ⟨k₀, v₀⟩ := p
    by_cases hk : k₀ = k
    · simp [alGet, hk]
    · simp [alGet, hk, ih]

theorem keyInsert_self_mem (d : List String) (k : String) : k ∈ keyInsert d k := by
  unfold keyInsert
  by_cases h : k ∈ d
  · simp [h]
  · simp [h]

theorem alKeys_map_pair {κ α : Type} (d : List κ) (f : κ → α) :
    alKeys (d.map fun k => (k, f k)) = d := by
  induction d with
  | nil => rfl
  | cons x rest ih =>
    show x :: alKeys (rest.map fun k => (k, f k)) = x :: rest
    rw [ih]

theorem dirtySnapshot_keys (cm : ComponentManager) :
    alKeys cm.dirtySnapshot = cm.dirty := by
  unfold ComponentManager.dirtySnapshot
  exact alKeys_map_pair cm.dirty _

theorem alGet_map_pair_of_mem {κ α : Type} [DecidableEq κ] {d : List κ} {k : κ}
    (f : κ → α) (h : k ∈ d) :
    alGet (d.map fun x => (x, f x)) k = some (f k) := by
  induction d with
  | nil => simp at h
  | cons x rest ih =>
    by_cases hx : x = k
    · subst hx
      simp [alGet]
    · rcases List.mem_cons.mp h with h1 | h2
      · exact absurd h1.symm hx
      · simpa [alGet, hx] using ih h2

theorem alGet_dirtySnapshot_of_mem {cm : ComponentManager} {k : String}
    (h : k ∈ cm.dirty) :
    alGet cm.dirtySnapshot k = some ((alGet cm.attributes k).getD JVal.vnull) := by
  unfold ComponentManager.dirtySnapshot
  exact alGet_map_pair_of_mem _ h

theorem not_mem_keys_dirtySnapshot {cm : ComponentManager} {k : String}
    (h : k ∉ cm.dirty) : k ∉ alKeys cm.dirtySnapshot := by
  rw [dirtySnapshot_keys]
  exact h

/-!
Claim C3: Component Store construction.
-/

/-- C3: constructing a Component Store with `synchronized = false`
produces a dirty set that is exactly the list of initial keys (hence of
the same length as the initial mapping), constructing with
`synchronized = true` produces an empty dirty set, and in both cases the
stored mapping equals the initial mapping. -/
theorem c3_store_construction (attrs : List (String × JVal)) :
    (ComponentManager.create attrs false).attributes = attrs ∧
    (ComponentManager.create attrs false).dirty = alKeys attrs ∧
    (ComponentManager.create attrs false).dirty.length = attrs.length ∧
    (ComponentManager.create attrs true).attributes = attrs ∧
    (ComponentManager.create attrs true).dirty = [] := by
  refine ⟨rfl, rfl, ?_, rfl, rfl⟩
  simp [ComponentManager.create, alKeys]

/-!
Claim C4: Component Store dirty tracking.
-/

/-- C4: setting a key to the value it already stores changes neither the
dirty set nor the stored mapping; setting it to a different value (or a
previously absent key) always marks it dirty; `clean()` empties the dirty
set without changing any stored value. -/
theorem c4_store_dirty_tracking (cm : ComponentManager) (k : String) (v : JVal) :
    (alGet cm.attributes k = some v → cm.setItem k v = cm) ∧
    (alGet cm.attributes k ≠ some v → k ∈ (cm.setItem k v).dirty) ∧
    cm.cleanStore.dirty = [] ∧
    cm.cleanStore.attributes = cm.attributes := by
  refine ⟨?_, ?_, rfl, rfl⟩
  · intro h
    unfold ComponentManager.setItem
    rw [h]
    simp
  · intro h
    unfold ComponentManager.setItem
    cases hg : alGet cm.attributes k with
    | none => simpa using keyInsert_self_mem cm.dirty k
    | some orig =>
      have : orig ≠ v := by
        intro he
        exact h (by rw [hg, he])
      simpa [this] using keyInsert_self_mem cm.dirty k

/-- C4 witness: concrete instances of all three parts. -/
theorem c4_store_dirty_tracking_witness :
    ((ComponentManager.create [("key", JVal.vstr "value")] true).setItem
        "key" (JVal.vstr "value")
      = ComponentManager.create [("key", JVal.vstr "value")] true) ∧
    ("key" ∈ ((ComponentManager.create [] true).setItem "key" (JVal.vstr "value")).dirty) ∧
    (ComponentManager.create [("key", JVal.vstr "value")] false).cleanStore.dirty = [] := by
  refine ⟨?_, ?_, ?_⟩
  · exact (c4_store_dirty_tracking
      (ComponentManager.create [("key", JVal.vstr "value")] true) "key"
      (JVal.vstr "value")).1 (by decide)
  · exact (c4_store_dirty_tracking
      (ComponentManager.create [] true) "key" (JVal.vstr "value")).2.1 (by decide)
  · exact (c4_store_dirty_tracking
      (ComponentManager.create [("key", JVal.vstr "value")] false) "key"
      (JVal.vstr "value")).2.2.1

/-!
Supporting lemmas for schema collection.
-/

theorem alGet_alSet_self {κ α : Type} [DecidableEq κ] (m : List (κ × α))
    (k : κ) (v : α) : alGet (alSet m k v) k = some v := by
  induction m with
  | nil => simp [alSet, alGet]
  | cons p rest ih =>
    obtain ⟨k₀, v₀⟩ := p
    by_cases hk : k₀ = k
    · simp [alSet, alGet, hk]
    · simp [alSet, alGet, hk, ih]

theorem alGet_alSet_ne {κ α : Type} [DecidableEq κ] (m : List (κ × α))
    {k k' : κ} (v : α) (h : k' ≠ k) :
    alGet (alSet m k v) k' = alGet m k' := by
  have h' : ¬ k = k' := fun he => h he.symm
  induction m with
  | nil => simp [alSet, alGet, h']
  | cons p rest ih =>
    obtain ⟨k₀, v₀⟩ := p
    by_cases hk : k₀ = k
    · subst hk
      simp [alSet, alGet, h']
    · simp only [alSet, if_neg hk]
      by_cases hk' : k₀ = k'
      · simp [alGet, hk']
      · simp [alGet, hk', ih]

theorem alGet_cons_step {κ α : Type} [DecidableEq κ] (k₀ : κ) (v₀ : α)
    (rest : List (κ × α)) (k : κ) :
    alGet ((k₀, v₀) :: rest) k = if k₀ = k then some v₀ else alGet rest k := rfl

theorem collectReverse_cons_step (ln rn : String)
    (rest : List (String × String)) (ready : List String)
    (mapping : List (String × String)) :
    collectReverse ((ln, rn) :: rest) ready mapping
      = if ln ∈ ready then collectReverse rest ready mapping
        else collectReverse rest (ln :: ready) (alSet mapping rn ln) := rfl

theorem collectReverse_sound
    (chain₀ : List (String × String)) :
    ∀ (rest : List (String × String)) (ready : List String)
      (mapping : List (String × String)),
      (∀ r l, alGet mapping r = some l → alGet chain₀ l = some r) →
      (∀ l, l ∉ ready → alGet rest l = alGet chain₀ l) →
      ∀ r l, alGet (collectReverse rest ready mapping) r = some l →
        alGet chain₀ l = some r := by
  intro rest
  induction rest with
  | nil =>
    intro ready mapping inv1 _ r l h
    exact inv1 r l h
  | cons p rest' ih =>
    intro ready mapping inv1 inv3 r l h
    obtain ⟨ln, rn⟩ := p
    rw [collectReverse_cons_step] at h
    by_cases hr : ln ∈ ready
    · rw [if_pos hr] at h
      refine ih ready mapping inv1 ?_ r l h
      intro l' hl'
      have hne : ¬ ln = l' := fun he => hl' (he ▸ hr)
      have h3 := inv3 l' hl'
      rwa [alGet_cons_step, if_neg hne] at h3
    · rw [if_neg hr] at h
      refine ih (ln :: ready) (alSet mapping rn ln) ?_ ?_ r l h
      · intro r' l' hget
        by_cases hrn : r' = rn
        · subst hrn
          rw [alGet_alSet_self] at hget
          injection hget with hln
          have hl'r : l' ∉ ready := by rw [← hln]; exact hr
          have h3 := inv3 l' hl'r
          rw [alGet_cons_step, if_pos hln] at h3
          exact h3.symm
        · rw [alGet_alSet_ne mapping ln hrn] at hget
          exact inv1 r' l' hget
      · intro l' hl'
        have hne : ¬ ln = l' :=
          fun he => hl' (he ▸ List.mem_cons_self ln ready)
        have hnm : l' ∉ ready := fun hm => hl' (List.mem_cons_of_mem _ hm)
        have h3 := inv3 l' hnm
        rwa [alGet_cons_step, if_neg hne] at h3

theorem collectReverse_complete
    (chain₀ : List (String × String)) (l r : String)
    (H : ∀ p ∈ chain₀, p.2 = r → p.1 = l) :
    ∀ (rest : List (String × String)) (ready : List String)
      (mapping : List (String × String)),
      rest ⊆ chain₀ →
      (alGet mapping r = some l ∨ (l ∉ ready ∧ alGet rest l = some r)) →
      alGet (collectReverse rest ready mapping) r = some l := by
  intro rest
  induction rest with
  | nil =>
    intro ready mapping _ hwrite
    rcases hwrite with h | ⟨_, h⟩
    · exact h
    · simp [alGet] at h
  | cons p rest' ih =>
    intro ready mapping hsub hwrite
    obtain ⟨ln, rn⟩ := p
    have hsub' : rest' ⊆ chain₀ := (List.cons_subset.mp hsub).2
    rw [collectReverse_cons_step]
    by_cases hr : ln ∈ ready
    · rw [if_pos hr]
      refine ih ready mapping hsub' ?_
      rcases hwrite with h | ⟨hnr, h⟩
      · exact Or.inl h
      · have hne : ¬ ln = l := fun he => hnr (he ▸ hr)
        rw [alGet_cons_step, if_neg hne] at h
        exact Or.inr ⟨hnr, h⟩
    · rw [if_neg hr]
      refine ih (ln :: ready) (alSet mapping rn ln) hsub' ?_
      rcases hwrite with h | ⟨hnr, h⟩
      · by_cases hrn : rn = r
        · subst hrn
          have hll : ln = l := H (ln, rn) (hsub (List.mem_cons_self _ _)) rfl
          subst hll
          exact Or.inl (alGet_alSet_self mapping rn ln)
        · refine Or.inl ?_
          rw [alGet_alSet_ne mapping ln (fun he => hrn he.symm)]
          exact h
      · by_cases hl : ln = l
        · subst hl
          rw [alGet_cons_step, if_pos rfl] at h
          injection h with hrr
          subst hrr
          exact Or.inl (alGet_alSet_self mapping rn ln)
        · rw [alGet_cons_step, if_neg hl] at h
          refine Or.inr ⟨?_, h⟩
          intro hm
          rcases List.mem_cons.mp hm with he | hm'
          · exact hl he.symm
          · exact hnr hm'

/-!
Claim C5: inheritance-chain schema collection.
-/

/-- C5: over an inheritance chain of body declarations (most derived
first), forward lookup of a local name declared by the subclass never
consults the ancestors; every entry of the collected reverse mapping
reflects the most-derived declaration of its local name, so a base
class's later-processed mapping can never overwrite the subclass's
override; and the subclass's remote name does map back to the local name
whenever no other declaration reuses that remote name. -/
theorem c5_schema_override_law
    (child parent : List (String × String)) (l : String) :
    (l ∈ alKeys child →
      lookupForward (child ++ parent) l = lookupForward child l) ∧
    (∀ r l', alGet (bodyMapping (child ++ parent)) r = some l' →
      alGet (child ++ parent) l' = some r) ∧
    (∀ r, alGet (child ++ parent) l = some r →
      (∀ p ∈ child ++ parent, p.2 = r → p.1 = l) →
      alGet (bodyMapping (child ++ parent)) r = some l) := by
  refine ⟨?_, ?_, ?_⟩
  · intro hmem
    have hs := alGet_isSome_of_mem_keys hmem
    cases hg : alGet child l with
    | none => rw [hg] at hs; simp at hs
    | some v =>
      unfold lookupForward
      rw [hg]
      exact alGet_append_left parent hg
  · intro r l' h
    exact collectReverse_sound (child ++ parent) (child ++ parent) [] []
      (fun _ _ hx => by simp [alGet] at hx) (fun _ _ => rfl) r l' h
  · intro r hfirst H
    exact collectReverse_complete (child ++ parent) l r H (child ++ parent) [] []
      (fun x hx => hx) (Or.inr ⟨List.not_mem_nil l, hfirst⟩)

/-- C5 witness: the override scenario of the unit tests, where the
subclass redeclares `name` and `id` with remote names MyName and MyID
over the base declarations. -/
theorem c5_schema_override_law_witness :
    (lookupForward
        ([("name", "MyName"), ("id", "MyID")] ++ [("name", "name"), ("id", "id")])
        "name" = some "MyName") ∧
    (alGet (bodyMapping
        ([("name", "MyName"), ("id", "MyID")] ++ [("name", "name"), ("id", "id")]))
        "MyName" = some "name") ∧
    (alGet (bodyMapping
        ([("name", "MyName"), ("id", "MyID")] ++ [("name", "name"), ("id", "id")]))
        "name" = none) := by
  refine ⟨?_, ?_, by decide⟩
  · have := (c5_schema_override_law [("name", "MyName"), ("id", "MyID")]
      [("name", "name"), ("id", "id")] "name").1 (by decide)
    rw [this]
    decide
  · exact (c5_schema_override_law [("name", "MyName"), ("id", "MyID")]
      [("name", "name"), ("id", "id")] "name").2.2 "MyName" (by decide) (by decide)

/-!
Claim C6: alternate identity.
-/

/-- C6: on a schema whose alternate-identity descriptor is the field
`bar` (local and remote name bar) and whose literal `id` field maps to
remote name id, constructing with bar alone yields identity bunnies read
through the alternate field, while constructing with both an explicit id
and bar yields identity chickens with `.bar` still independently reading
bunnies. -/
theorem c6_alternate_identity (schema : List BodyDescriptor)
    (halt : schema.find? (fun d => d.alternate_id) = some ⟨"bar", "bar", true⟩)
    (hbar : schema.find? (fun d => d.localName = "bar") = some ⟨"bar", "bar", true⟩)
    (hid : schema.find? (fun d => d.localName = "id") = some ⟨"id", "id", false⟩) :
    (resourceGetId schema (consumeBodyAttrs schema [("bar", JVal.vstr "bunnies")])
        = some (JVal.vstr "bunnies")) ∧
    (Component.getAttr ⟨"bar", none, JVal.vnull, true, none⟩
        (consumeBodyAttrs schema [("bar", JVal.vstr "bunnies")])
        = JVal.vstr "bunnies") ∧
    (resourceGetId schema
        (consumeBodyAttrs schema
          [("id", JVal.vstr "chickens"), ("bar", JVal.vstr "bunnies")])
        = some (JVal.vstr "chickens")) ∧
    (Component.getAttr ⟨"bar", none, JVal.vnull, true, none⟩
        (consumeBodyAttrs schema
          [("id", JVal.vstr "chickens"), ("bar", JVal.vstr "bunnies")])
        = JVal.vstr "bunnies") := by
  have hbody₁ :
      consumeBodyAttrs schema [("bar", JVal.vstr "bunnies")]
        = [("bar", JVal.vstr "bunnies")] := by
    simp [consumeBodyAttrs, hbar, alSet]
  have hbody₂ :
      consumeBodyAttrs schema
          [("id", JVal.vstr "chickens"), ("bar", JVal.vstr "bunnies")]
        = [("id", JVal.vstr "chickens"), ("bar", JVal.vstr "bunnies")] := by
    simp [consumeBodyAttrs, hbar, hid, alSet]
  refine ⟨?_, ?_, ?_, ?_⟩
  · rw [hbody₁]
    simp [resourceGetId, alternateIdRemote, halt, alGet]
  · rw [hbody₁]
    simp [Component.getAttr, alGet]
  · rw [hbody₂]
    simp [resourceGetId, alGet]
  · rw [hbody₂]
    simp [Component.getAttr, alGet]

/-- C6 witness: the schema of the unit test, with descriptors foo, the
alternate-identity bar, and the base id. -/
theorem c6_alternate_identity_witness :
    resourceGetId
        [⟨"foo", "foo", false⟩, ⟨"bar", "bar", true⟩, ⟨"id", "id", false⟩]
        (consumeBodyAttrs
          [⟨"foo", "foo", false⟩, ⟨"bar", "bar", true⟩, ⟨"id", "id", false⟩]
          [("id", JVal.vstr "chickens"), ("bar", JVal.vstr "bunnies")])
        = some (JVal.vstr "chickens") :=
  (c6_alternate_identity
    [⟨"foo", "foo", false⟩, ⟨"bar", "bar", true⟩, ⟨"id", "id", false⟩]
    (by decide) (by decide) (by decide)).2.2.1

/-!
Supporting lemmas for the query parameter translator.
-/

theorem alKeys_cons {κ α : Type} (k : κ) (v : α) (rest : List (κ × α)) :
    alKeys ((k, v) :: rest) = k :: alKeys rest := rfl

theorem alKeys_alSet_mem {κ α : Type} [DecidableEq κ] (m : List (κ × α))
    (k k' : κ) (v : α) (h : k' ∈ alKeys m) : k' ∈ alKeys (alSet m k v) := by
  induction m with
  | nil => simp [alKeys] at h
  | cons p rest ih =>
    obtain ⟨k₀, v₀⟩ := p
    rw [alKeys_cons] at h
    by_cases hk : k₀ = k
    · simp only [alSet, if_pos hk, alKeys_cons]
      exact h
    · simp only [alSet, if_neg hk, alKeys_cons]
      rcases List.mem_cons.mp h with he | hm
      · exact he ▸ List.mem_cons_self _ _
      · exact List.mem_cons_of_mem _ (ih hm)

theorem alKeys_alSets_mem {κ α : Type} [DecidableEq κ] (upd : List (κ × α))
    (m : List (κ × α)) (k : κ) (h : k ∈ alKeys m) :
    k ∈ alKeys (alSets m upd) := by
  induction upd generalizing m with
  | nil => exact h
  | cons p rest ih =>
    unfold alSets at ih ⊢
    simp only [List.foldl_cons]
    exact ih _ (alKeys_alSet_mem m p.1 k p.2 h)

theorem alGet_split {κ α : Type} [DecidableEq κ] {m : List (κ × α)} {k : κ}
    {t : α} (h : alGet m k = some t) :
    ∃ pre suf, m = pre ++ (k, t) :: suf ∧ k ∉ alKeys pre := by
  induction m with
  | nil => simp [alGet] at h
  | cons p rest ih =>
    obtain ⟨k₀, v₀⟩ := p
    by_cases hk : k₀ = k
    · subst hk
      rw [alGet_cons_step, if_pos rfl] at h
      injection h with ht
      subst ht
      exact ⟨[], rest, rfl, by simp [alKeys]⟩
    · rw [alGet_cons_step, if_neg hk] at h
      obtain ⟨pre, suf, hm, hnp⟩ := ih h
      refine ⟨(k₀, v₀) :: pre, suf, by rw [hm]; rfl, ?_⟩
      intro hmem
      rw [alKeys_cons] at hmem
      rcases List.mem_cons.mp hmem with he | hmem'
      · exact hk he.symm
      · exact hnp hmem'

/-- One step of the transpose fold. -/
def transposeStep (query : List (String × JVal)) (resourceType : String)
    (result : List (String × JVal)) (kt : String × QPTarget) :
    List (String × JVal) :=
  match alGet query kt.1 with
  | none => result
  | some provided =>
    alSet result (kt.2.nameFor kt.1) (kt.2.applyType provided resourceType)

theorem transpose_eq_foldl (qp : QueryParameters)
    (query : List (String × JVal)) (rt : String) :
    qp.transpose query rt = qp.mapping.foldl (transposeStep query rt) [] := by
  unfold QueryParameters.transpose transposeStep
  rfl

theorem transpose_fold_congr (q1 q2 : List (String × JVal)) (rt : String) :
    ∀ (m : List (String × QPTarget)) (acc : List (String × JVal)),
      (∀ kt ∈ m, alGet q1 kt.1 = alGet q2 kt.1) →
      m.foldl (transposeStep q1 rt) acc = m.foldl (transposeStep q2 rt) acc := by
  intro m
  induction m with
  | nil => intro acc _; rfl
  | cons kt rest ih =>
    intro acc hq
    simp only [List.foldl_cons]
    have hstep : transposeStep q1 rt acc kt = transposeStep q2 rt acc kt := by
      unfold transposeStep
      rw [hq kt (List.mem_cons_self _ _)]
    rw [hstep]
    exact ih _ fun kt' hm => hq kt' (List.mem_cons_of_mem _ hm)

theorem transpose_fold_frame (q : List (String × JVal)) (rt : String)
    (nm : String) :
    ∀ (m : List (String × QPTarget)) (acc : List (String × JVal)),
      (∀ kt ∈ m, kt.2.nameFor kt.1 ≠ nm) →
      alGet (m.foldl (transposeStep q rt) acc) nm = alGet acc nm := by
  intro m
  induction m with
  | nil => intro acc _; rfl
  | cons kt rest ih =>
    intro acc hm
    simp only [List.foldl_cons]
    rw [ih _ fun kt' h => hm kt' (List.mem_cons_of_mem _ h)]
    unfold transposeStep
    cases alGet q kt.1 with
    | none => rfl
    | some provided =>
      exact alGet_alSet_ne acc _ fun he =>
        hm kt (List.mem_cons_self _ _) he.symm

/-!
Claim C9: query parameter transposition.
-/

/-- C9: the constructed declared mapping always contains the built-in
pagination parameters limit and marker; transposing drops a
caller-supplied argument absent from the declared mapping silently (the
result is unchanged by adding such an argument); and a declared argument
present in the query appears in the result under its server-facing name
with its value coerced by the declared type applied to the value and the
owning resource type. -/
theorem c9_query_parameter_translation
    (names : List String) (mappings : List (String × QPTarget))
    (qp : QueryParameters) (query : List (String × JVal)) (rt : String)
    (k : String) (t : QPTarget) (v : JVal) :
    ("limit" ∈ alKeys (QueryParameters.create names mappings).mapping ∧
      "marker" ∈ alKeys (QueryParameters.create names mappings).mapping) ∧
    (∀ extraKey extraVal, extraKey ∉ alKeys qp.mapping →
      qp.transpose (query ++ [(extraKey, extraVal)]) rt = qp.transpose query rt) ∧
    (alGet qp.mapping k = some t →
      alGet query k = some v →
      (alKeys qp.mapping).Nodup →
      (∀ k' t', (k', t') ∈ qp.mapping → k' ≠ k →
        QPTarget.nameFor t' k' ≠ QPTarget.nameFor t k) →
      alGet (qp.transpose query rt) (t.nameFor k)
        = some (t.applyType v rt)) := by
  refine ⟨⟨?_, ?_⟩, ?_, ?_⟩
  · exact alKeys_alSets_mem mappings _ _
      (alKeys_alSets_mem (names.map fun n => (n, QPTarget.bare n)) _ _
        (by simp [alKeys]))
  · exact alKeys_alSets_mem mappings _ _
      (alKeys_alSets_mem (names.map fun n => (n, QPTarget.bare n)) _ _
        (by simp [alKeys]))
  · intro extraKey extraVal hout
    rw [transpose_eq_foldl, transpose_eq_foldl]
    refine transpose_fold_congr _ _ rt qp.mapping [] ?_
    intro kt hm
    have hne : extraKey ≠ kt.1 := by
      intro he
      exact hout (he ▸ List.mem_map_of_mem Prod.fst hm)
    exact alGet_append_of_ne hne
  · intro hmk hqk hnd hname
    rw [transpose_eq_foldl]
    obtain ⟨pre, suf, hm, hkpre⟩ := alGet_split hmk
    rw [hm, List.foldl_append]
    have hsufne : ∀ kt ∈ suf, kt.2.nameFor kt.1 ≠ t.nameFor k := by
      intro kt hkt
      have hks : k ∉ alKeys suf := by
        rw [hm] at hnd
        have hsplit : alKeys (pre ++ (k, t) :: suf)
            = alKeys pre ++ alKeys ((k, t) :: suf) := by
          simp [alKeys]
        rw [hsplit] at hnd
        have h2 := hnd.of_append_right
        rw [alKeys_cons] at h2
        exact (List.nodup_cons.mp h2).1
      have hkne : kt.1 ≠ k := by
        intro he
        exact hks (he ▸ List.mem_map_of_mem Prod.fst hkt)
      exact hname kt.1 kt.2
        (by rw [hm]; exact List.mem_append_right _ (List.mem_cons_of_mem _ hkt))
        hkne
    simp only [List.foldl_cons]
    rw [transpose_fold_frame query rt (t.nameFor k) suf _ hsufne]
    unfold transposeStep
    rw [hqk]
    exact alGet_alSet_self _ _ _

/-- C9 witness: the declared mapping of the unit test and the query of
test_transpose_unmapped, instantiated with a times-ten coercion: the
unmapped last_name is dropped, complex is kept under its own name with
the coerced value, and the built-ins are declared. -/
theorem c9_query_parameter_translation_witness :
    ("limit" ∈ alKeys (QueryParameters.create ["location"]
        [("first_name", QPTarget.bare "first-name"),
          ("pet_name", QPTarget.structured (some "pet") none),
          ("complex", QPTarget.structured none
            (some fun v _ => match v with
              | JVal.vint n => JVal.vint (10 * n)
              | w => w))]).mapping) ∧
    (QueryParameters.transpose
        ⟨[("first_name", QPTarget.bare "first-name"),
          ("complex", QPTarget.structured none
            (some fun v _ => match v with
              | JVal.vint n => JVal.vint (10 * n)
              | w => w))]⟩
        ([("first_name", JVal.vstr "Brian"), ("complex", JVal.vint 1)]
          ++ [("last_name", JVal.vstr "Curtin")]) "sentinel"
      = QueryParameters.transpose
        ⟨[("first_name", QPTarget.bare "first-name"),
          ("complex", QPTarget.structured none
            (some fun v _ => match v with
              | JVal.vint n => JVal.vint (10 * n)
              | w => w))]⟩
        [("first_name", JVal.vstr "Brian"), ("complex", JVal.vint 1)] "sentinel") ∧
    (alGet (QueryParameters.transpose
        ⟨[("first_name", QPTarget.bare "first-name"),
          ("complex", QPTarget.structured none
            (some fun v _ => match v with
              | JVal.vint n => JVal.vint (10 * n)
              | w => w))]⟩
        [("first_name", JVal.vstr "Brian"), ("complex", JVal.vint 1)] "sentinel")
        "complex"
      = some (JVal.vint 10)) := by
  refine ⟨?_, ?_, ?_⟩
  · exact (c9_query_parameter_translation ["location"] _
      ⟨[]⟩ [] "sentinel" "" (QPTarget.bare "") JVal.vnull).1.1
  · exact (c9_query_parameter_translation [] []
      ⟨[("first_name", QPTarget.bare "first-name"),
        ("complex", QPTarget.structured none
          (some fun v _ => match v with
            | JVal.vint n => JVal.vint (10 * n)
            | w => w))]⟩
      [("first_name", JVal.vstr "Brian"), ("complex", JVal.vint 1)]
      "sentinel" "" (QPTarget.bare "") JVal.vnull).2.1
      "last_name" (JVal.vstr "Curtin") (by decide)
  · have h := (c9_query_parameter_translation [] []
      ⟨[("first_name", QPTarget.bare "first-name"),
        ("complex", QPTarget.structured none
          (some fun v _ => match v with
            | JVal.vint n => JVal.vint (10 * n)
            | w => w))]⟩
      [("first_name", JVal.vstr "Brian"), ("complex", JVal.vint 1)]
      "sentinel" "complex"
      (QPTarget.structured none
        (some fun v _ => match v with
          | JVal.vint n => JVal.vint (10 * n)
          | w => w)) (JVal.vint 1)).2.2
      rfl rfl (by decide)
      (by
        intro k' t' hm hne
        rcases List.mem_cons.mp hm with he | hm'
        · have : k' = "first_name" := by
            have := congrArg Prod.fst he
            simpa using this
          subst this
          have ht' : t' = QPTarget.bare "first-name" := by
            have := congrArg Prod.snd he
            simpa using this
          subst ht'
          decide
        · rcases List.mem_cons.mp hm' with he | hm''
          · exact absurd (by
              have := congrArg Prod.fst he
              simpa using this) hne
          · simp at hm'')
    exact h.trans rfl

/-!
Claim C10: descriptor reads of a stored null.
-/

/-- C10: reading a descriptor with a declared type and a declared
non-null default through a store that maps the descriptor's remote name
to null returns null: the stored null is neither replaced by the default
nor passed through the type coercion. -/
theorem c10_stored_null_short_circuit (name : String) (ty : CompType)
    (d : JVal) (alt : Bool) (aka : Option String)
    (store : List (String × JVal))
    (_hd : d ≠ JVal.vnull) (hs : alGet store name = some JVal.vnull) :
    Component.getAttr ⟨name, some ty, d, alt, aka⟩ store = JVal.vnull := by
  unfold Component.getAttr
  rw [hs]
  simp

/-- C10 witness: a descriptor with an aggressive coercion and default 1
still reads a stored null as null. -/
theorem c10_stored_null_short_circuit_witness :
    (JVal.vint 1 ≠ JVal.vnull) ∧
    (alGet [("name", JVal.vnull)] "name" = some JVal.vnull) ∧
    Component.getAttr
      ⟨"name",
        some (CompType.plain (fun _ => false) (fun _ => JVal.vint 7)),
        JVal.vint 1, false, none⟩
      [("name", JVal.vnull)] = JVal.vnull :=
  ⟨by decide, by decide,
    c10_stored_null_short_circuit "name"
      (CompType.plain (fun _ => false) (fun _ => JVal.vint 7))
      (JVal.vint 1) false none [("name", JVal.vnull)]
      (by decide) (by decide)⟩

/-!
Claim C1: identity handling in prepared requests.

The claim states that `_prepare_request(requires_id=True)` removes the
id key from the computed request body unless id has been marked clean.
The code does the opposite: the body is the dirty-field snapshot, so id
is included in the body precisely while it is dirty and stays out once
the caller marks it clean (section 9 of the spec states this polarity;
the unit test test__prepare_request_with_id asserts the body
{x: body, id: id}).
-/

/-- C1 counterexample: on the test resource the identity is resolvable
and the id key is dirty (not marked clean), yet the computed request
body still binds id to the identity value, so id was not removed. -/
theorem c1_counterexample :
    c1Resource.getId = some (JVal.vstr "id") ∧
    "id" ∈ c1Resource.body.dirty ∧
    requestBodyField (c1Resource.prepareRequest true false false) "id"
      = some (JVal.vstr "id") := by decide

/-- C1 as amended: with a resolvable identity, preparation appends the
identity value to the resolved base path, and the computed body is the
dirty-field snapshot: id is included (bound to the identity value) while
the id key is dirty, id stays out of the body once the caller marks it
clean, and every other dirty body field is sent with its current
value. -/
theorem c1_prepare_request_identity (r : ResourceState) (i : JVal)
    (hid : r.getId = some i) (hnn : i ≠ JVal.vnull) :
    (r.prepareRequest true false false
      = Except.ok
          { url := urljoin2 r.base_path (jvalToUrlStr i)
            body := ReqBody.obj r.body.dirtySnapshot
            headers := r.header.dirtySnapshot }) ∧
    ("id" ∈ r.body.dirty → alGet r.body.dirtySnapshot "id" = some i) ∧
    ("id" ∉ r.body.dirty → "id" ∉ alKeys r.body.dirtySnapshot) ∧
    (∀ k, k ∈ r.body.dirty →
      alGet r.body.dirtySnapshot k
        = some ((alGet r.body.attributes k).getD JVal.vnull)) := by
  have hid' : alGet r.body.attributes "id" = some i := hid
  refine ⟨?_, ?_, ?_, ?_⟩
  · simp [ResourceState.prepareRequest, hid, hnn]
  · intro hmem
    rw [alGet_dirtySnapshot_of_mem hmem, hid']
    rfl
  · exact not_mem_keys_dirtySnapshot
  · intro k hk
    exact alGet_dirtySnapshot_of_mem hk

/-- C1 witness: the amended statement on the dirty and the marked-clean
test resources. -/
theorem c1_prepare_request_identity_witness :
    (c1Resource.prepareRequest true false false
      = Except.ok
          { url := urljoin2 c1Resource.base_path (jvalToUrlStr (JVal.vstr "id"))
            body := ReqBody.obj c1Resource.body.dirtySnapshot
            headers := c1Resource.header.dirtySnapshot }) ∧
    alGet c1Resource.body.dirtySnapshot "id" = some (JVal.vstr "id") ∧
    "id" ∉ alKeys c1ResourceClean.body.dirtySnapshot := by
  have h := c1_prepare_request_identity c1Resource (JVal.vstr "id")
    (by decide) (by decide)
  have h2 := c1_prepare_request_identity c1ResourceClean (JVal.vstr "id")
    (by decide) (by decide)
  exact ⟨h.1, h.2.1 (by decide), h2.2.2.1 (by decide)⟩

/-!
Claim C2: JSON-Patch diff laws.
-/

/-- C2: for a commit_jsonpatch resource loaded as existing with id, x
and y and then mutated on x, the patch body is exactly one replace
operation for /x and nothing for the untouched y; for a resource built
via new with an id and x and never synchronized, the patch body is
exactly one add operation for /x; and deleting a field of an existing
resource leaves that key dirty with value null and yields exactly one
remove operation for it. -/
theorem c2_jsonpatch_laws (i x y x' v : JVal) (k : String)
    (hi : jvalTruthy i = true) (hx : x' ≠ x) (hk : k ≠ "id") :
    ((((ResourceState.make "/something" true none
          [("id", i), ("x", x), ("y", y)] [] true).setBody "x" x').prepareRequest
        true true false)
      = Except.ok
          { url := urljoin2 "/something" (jvalToUrlStr i)
            body := ReqBody.ops
              [{ op := "replace", path := "/x", value := some x' }]
            headers := [] }) ∧
    ((ResourceState.make "/something" true none
          [("id", i), ("x", x)] [] false).prepareRequest true true false
      = Except.ok
          { url := urljoin2 "/something" (jvalToUrlStr i)
            body := ReqBody.ops [{ op := "add", path := "/x", value := some x }]
            headers := [] }) ∧
    (((ResourceState.make "/something" true none
          [("id", i), (k, v)] [] true).delBody k).prepareRequest true true false
      = Except.ok
          { url := urljoin2 "/something" (jvalToUrlStr i)
            body := ReqBody.ops
              [{ op := "remove", path := "/" ++ k, value := none }]
            headers := [] }) ∧
    (((ResourceState.make "/something" true none
          [("id", i), (k, v)] [] true).delBody k).body.dirtySnapshot
      = [(k, JVal.vnull)]) := by
  have hnn := truthy_ne_null hi
  have hx2 : ¬ x = x' := fun he => hx he.symm
  have hk2 : ¬ "id" = k := fun he => hk he.symm
  refine ⟨?_, ?_, ?_, ?_⟩
  · simp [ResourceState.make, ResourceState.setBody, ResourceState.prepareRequest,
      ResourceState.getId, ComponentManager.create, ComponentManager.setItem,
      ComponentManager.dirtySnapshot, originalBodyFor, makePatch, alGet, alSet,
      alKeys, keyInsert, hx, hx2, hnn]
  · simp [ResourceState.make, ResourceState.prepareRequest, ResourceState.getId,
      ComponentManager.create, ComponentManager.dirtySnapshot, originalBodyFor,
      makePatch, alGet, alKeys, hi, hnn]
  · simp [ResourceState.make, ResourceState.delBody, ResourceState.prepareRequest,
      ResourceState.getId, ComponentManager.create, ComponentManager.delItem,
      ComponentManager.dirtySnapshot, originalBodyFor, makePatch, alGet, alRemove,
      alKeys, keyInsert, hk2, hnn]
  · simp [ResourceState.make, ResourceState.delBody,
      ComponentManager.create, ComponentManager.delItem,
      ComponentManager.dirtySnapshot, alGet, alRemove, alKeys, keyInsert, hk2]

/-- C2 witness: the patch scenarios at the concrete values of the unit
tests (id "id", x 1 mutated to 3, y 2; deletion of a field z). -/
theorem c2_jsonpatch_laws_witness :
    ((((ResourceState.make "/something" true none
          [("id", JVal.vstr "id"), ("x", JVal.vint 1), ("y", JVal.vint 2)]
          [] true).setBody "x" (JVal.vint 3)).prepareRequest true true false)
      = Except.ok
          { url := "something/id"
            body := ReqBody.ops
              [{ op := "replace", path := "/x", value := some (JVal.vint 3) }]
            headers := [] }) ∧
    ((ResourceState.make "/something" true none
          [("id", JVal.vstr "id"), ("x", JVal.vint 1)] [] false).prepareRequest
        true true false
      = Except.ok
          { url := "something/id"
            body := ReqBody.ops
              [{ op := "add", path := "/x", value := some (JVal.vint 1) }]
            headers := [] }) ∧
    (((ResourceState.make "/something" true none
          [("id", JVal.vstr "id"), ("z", JVal.vint 9)] [] true).delBody
          "z").prepareRequest true true false
      = Except.ok
          { url := "something/id"
            body := ReqBody.ops
              [{ op := "remove", path := "/z", value := none }]
            headers := [] }) := by
  have h := c2_jsonpatch_laws (JVal.vstr "id") (JVal.vint 1) (JVal.vint 2)
    (JVal.vint 3) (JVal.vint 9) "z" (by decide) (by decide) (by decide)
  exact ⟨h.1.trans (by decide), h.2.1.trans (by decide), h.2.2.1.trans (by decide)⟩

/-!
Claim C7: the capability gate.

The claim states that with all six capability flags false every one of
the six operations signals the not-permitted condition before any
transport interaction. That holds for create, fetch, delete, head and
list, and for commit on anything dirty; but commit checks the dirty
state first and treats a fully clean resource as a no-op success without
signalling anything, so the claim fails on a clean resource.
-/

/-- C7 counterexample: with every capability flag false, committing a
fully synchronized (clean) resource succeeds as a no-op instead of
signalling the not-permitted condition; no transport call is made either
way. -/
theorem c7_counterexample :
    capsNone.allow_commit = false ∧
    opCommit capsNone c7CleanResource (fun _ => ()) = (Except.ok (), []) :=
  ⟨rfl, rfl⟩

/-- C7 as amended: with all six capability flags false, create, fetch,
delete, head and consuming the list generator signal the not-permitted
condition with no transport interaction; commit does the same whenever
anything is dirty, while a fully clean commit is a no-op success (also
without transport interaction). -/
theorem c7_capability_gate (r : ResourceState) (session : Session) :
    opCreate capsNone r session = (Except.error OpError.methodNotSupported, []) ∧
    opFetch capsNone r session = (Except.error OpError.methodNotSupported, []) ∧
    opDelete capsNone r session = (Except.error OpError.methodNotSupported, []) ∧
    opHead capsNone r session = (Except.error OpError.methodNotSupported, []) ∧
    opList capsNone r session = (Except.error OpError.methodNotSupported, []) ∧
    (¬ (r.body.dirty = [] ∧ r.header.dirty = []) →
      opCommit capsNone r session = (Except.error OpError.methodNotSupported, [])) := by
  refine ⟨rfl, rfl, rfl, rfl, rfl, ?_⟩
  intro hdirty
  unfold opCommit
  rw [if_neg hdirty]
  rfl

/-- C7 witness: the gate on a resource with a dirty body field. -/
theorem c7_capability_gate_witness :
    opCreate capsNone
        (ResourceState.make "/s" false none [("x", JVal.vint 1)] [] false)
        (fun _ => ())
      = (Except.error OpError.methodNotSupported, []) ∧
    opCommit capsNone
        (ResourceState.make "/s" false none [("x", JVal.vint 1)] [] false)
        (fun _ => ())
      = (Except.error OpError.methodNotSupported, []) := by
  have h := c7_capability_gate
    (ResourceState.make "/s" false none [("x", JVal.vint 1)] [] false)
    (fun _ => ())
  exact ⟨h.1, h.2.2.2.2.2 (by decide)⟩

/-!
Structural transform, part 1: basic step lemmas and domain growth of
the seen table.
-/

theorem mgo_zero (heap : List (Nat × INode)) (b : Bool) (t : MTask)
    (st : MState) : mgo heap b 0 t st = none := rfl

theorem mgo_succ (heap : List (Nat × INode)) (b : Bool) (f : Nat)
    (t : MTask) (st : MState) :
    mgo heap b (f + 1) t st = mgoStep heap b (mgo heap b f) t st := rfl

theorem mgo_conv_hit (heap : List (Nat × INode)) (b : Bool) (f : Nat)
    (a : Nat) (st : MState) (o : Nat) (h : alGet st.seen a = some o) :
    mgo heap b (f + 1) (MTask.conv a) st = some (o, st) := by
  rw [mgo_succ]
  simp only [mgoStep]
  rw [h]

theorem seen_mapSetOut (st : MState) (o : Nat) (k : String) (v : Nat) :
    (mapSetOut st o k v).seen = st.seen := by
  unfold mapSetOut
  cases alGet st.out o with
  | none => rfl
  | some n => cases n <;> rfl

theorem next_mapSetOut (st : MState) (o : Nat) (k : String) (v : Nat) :
    (mapSetOut st o k v).next = st.next := by
  unfold mapSetOut
  cases alGet st.out o with
  | none => rfl
  | some n => cases n <;> rfl

theorem seen_listExtendOut (st : MState) (o : Nat) (v : Nat) :
    (listExtendOut st o v).seen = st.seen := by
  unfold listExtendOut
  cases alGet st.out o with
  | none => rfl
  | some n => cases n <;> rfl

theorem next_listExtendOut (st : MState) (o : Nat) (v : Nat) :
    (listExtendOut st o v).next = st.next := by
  unfold listExtendOut
  cases alGet st.out o with
  | none => rfl
  | some n => cases n <;> rfl

theorem seenDomLe_refl (st : MState) : SeenDomLe st st := fun _ hx => hx

theorem seenDomLe_trans {s₁ s₂ s₃ : MState} (h₁ : SeenDomLe s₁ s₂)
    (h₂ : SeenDomLe s₂ s₃) : SeenDomLe s₁ s₃ :=
  fun x hx => h₁ x (h₂ x hx)

theorem seenDomLe_of_seen_eq {s₁ s₂ : MState} (h : s₂.seen = s₁.seen) :
    SeenDomLe s₁ s₂ := fun x hx => by rw [h] at hx; exact hx

theorem seenDomLe_register (st : MState) (a o : Nat)
    (out' : List (Nat × ONode)) (n' : Nat) :
    SeenDomLe st { seen := (a, o) :: st.seen, out := out', next := n' } := by
  intro x hx
  have hx' : (alGet ((a, o) :: st.seen) x).isNone = true := hx
  rw [alGet_cons_step] at hx'
  by_cases hax : a = x
  · rw [if_pos hax] at hx'
    simp at hx'
  · rwa [if_neg hax] at hx'

theorem postFieldsGo_seenDom (g : Nat → MState → Option (Nat × MState))
    (hg : ∀ c s oc s', g c s = some (oc, s') → SeenDomLe s s') (o : Nat) :
    ∀ (fields : List (String × Nat)) (st st' : MState),
      postFieldsGo g o fields st = some st' → SeenDomLe st st' := by
  intro fields
  induction fields with
  | nil =>
    intro st st' h
    injection h with h1
    subst h1
    exact seenDomLe_refl st
  | cons kc rest ih =>
    intro st st' h
    obtain ⟨k, c⟩ := kc
    simp only [postFieldsGo] at h
    split at h
    · cases h
    · rename_i oc st₁ heq
      exact seenDomLe_trans (hg c st oc st₁ heq)
        (seenDomLe_trans (seenDomLe_of_seen_eq (seen_mapSetOut st₁ o k oc))
          (ih _ _ h))

theorem postItemsGo_seenDom (g : Nat → MState → Option (Nat × MState))
    (hg : ∀ c s oc s', g c s = some (oc, s') → SeenDomLe s s') (o : Nat) :
    ∀ (items : List Nat) (st st' : MState),
      postItemsGo g o items st = some st' → SeenDomLe st st' := by
  intro items
  induction items with
  | nil =>
    intro st st' h
    injection h with h1
    subst h1
    exact seenDomLe_refl st
  | cons c rest ih =>
    intro st st' h
    simp only [postItemsGo] at h
    split at h
    · cases h
    · rename_i oc st₁ heq
      exact seenDomLe_trans (hg c st oc st₁ heq)
        (seenDomLe_trans (seenDomLe_of_seen_eq (seen_listExtendOut st₁ o oc))
          (ih _ _ h))

theorem convItemsGo_seenDom (g : Nat → MState → Option (Nat × MState))
    (hg : ∀ c s oc s', g c s = some (oc, s') → SeenDomLe s s') :
    ∀ (items : List Nat) (st : MState) (ocs : List Nat) (st' : MState),
      convItemsGo g items st = some (ocs, st') → SeenDomLe st st' := by
  intro items
  induction items with
  | nil =>
    intro st ocs st' h
    injection h with h1
    injection h1 with h2 h3
    subst h3
    exact seenDomLe_refl st
  | cons c rest ih =>
    intro st ocs st' h
    simp only [convItemsGo] at h
    split at h
    · cases h
    · rename_i oc st₁ heq
      split at h
      · cases h
      · rename_i ocs₂ st₂ heq2
        injection h with h1
        injection h1 with h2 h3
        subst h3
        exact seenDomLe_trans (hg c st oc st₁ heq) (ih _ _ _ heq2)

theorem postPairsGo_seenDom (p : Nat → Nat → MState → Option (Nat × MState))
    (hp : ∀ po ia s r s', p po ia s = some (r, s') → SeenDomLe s s') :
    ∀ (pairs : List (Nat × Nat)) (st st' : MState),
      postPairsGo p pairs st = some st' → SeenDomLe st st' := by
  intro pairs
  induction pairs with
  | nil =>
    intro st st' h
    injection h with h1
    subst h1
    exact seenDomLe_refl st
  | cons pr rest ih =>
    intro st st' h
    obtain ⟨po, ia⟩ := pr
    simp only [postPairsGo] at h
    split at h
    · cases h
    · rename_i r st₁ heq
      exact seenDomLe_trans (hp po ia st r st₁ heq) (ih _ _ h)

theorem mgoStep_seenDom (heap : List (Nat × INode)) (b : Bool)
    (g : MTask → MState → Option (Nat × MState))
    (hg : ∀ t s r s', g t s = some (r, s') → SeenDomLe s s') :
    ∀ (t : MTask) (st : MState) (r : Nat) (st' : MState),
      mgoStep heap b g t st = some (r, st') → SeenDomLe st st' := by
  have hgc : ∀ c s oc s', (fun c s => g (MTask.conv c) s) c s = some (oc, s') →
      SeenDomLe s s' := fun c s oc s' h => hg (MTask.conv c) s oc s' h
  have hgp : ∀ po ia s r s', (fun po ia s => g (MTask.post po ia) s) po ia s
      = some (r, s') → SeenDomLe s s' :=
    fun po ia s r s' h => hg (MTask.post po ia) s r s' h
  intro t st r st' h
  cases t with
  | conv a =>
    simp only [mgoStep] at h
    split at h
    · injection h with h1
      injection h1 with h2 h3
      subst h3
      exact seenDomLe_refl st
    · rename_i hseen
      split at h
      · cases h
      · rename_i v heq
        injection h with h1
        injection h1 with h2 h3
        subst h3
        exact seenDomLe_register st a st.next _ _
      · rename_i fields heq
        split at h
        · cases h
        · rename_i st₂ heq2
          injection h with h1
          injection h1 with h2 h3
          subst h3
          exact seenDomLe_trans (seenDomLe_register st a st.next _ _)
            (postFieldsGo_seenDom _ hgc _ _ _ _ heq2)
      · rename_i items heq
        split at h
        · cases h
        · rename_i st₂ heq2
          injection h with h1
          injection h1 with h2 h3
          subst h3
          exact seenDomLe_trans (seenDomLe_register st a st.next _ _)
            (postItemsGo_seenDom _ hgc _ _ _ _ heq2)
      · rename_i items heq
        split at h
        · cases h
        · rename_i ocs st₁ heq2
          split at h
          · cases h
          · rename_i st₃ heq3
            injection h with h1
            injection h1 with h2 h3
            subst h3
            exact seenDomLe_trans (convItemsGo_seenDom _ hgc _ _ _ _ heq2)
              (seenDomLe_trans (seenDomLe_register st₁ a st₁.next _ _)
                (postPairsGo_seenDom _ hgp _ _ _ heq3))
  | post po ia =>
    simp only [mgoStep] at h
    split at h
    · cases h
    · rename_i v heq
      injection h with h1
      injection h1 with h2 h3
      subst h3
      exact seenDomLe_refl st
    · rename_i fields heq
      split at h
      · cases h
      · rename_i st₁ heq2
        injection h with h1
        injection h1 with h2 h3
        subst h3
        exact postFieldsGo_seenDom _ hgc _ _ _ _ heq2
    · rename_i items heq
      split at h
      · cases h
      · rename_i st₁ heq2
        injection h with h1
        injection h1 with h2 h3
        subst h3
        exact postItemsGo_seenDom _ hgc _ _ _ _ heq2
    · rename_i items heq
      split at h
      · rename_i ocs heq2
        split at h
        · cases h
        · rename_i st₁ heq3
          injection h with h1
          injection h1 with h2 h3
          subst h3
          exact postPairsGo_seenDom _ hgp _ _ _ heq3
      · injection h with h1
        injection h1 with h2 h3
        subst h3
        exact seenDomLe_refl st

theorem mgo_seenDom (heap : List (Nat × INode)) (b : Bool) :
    ∀ (f : Nat) (t : MTask) (st : MState) (r : Nat) (st' : MState),
      mgo heap b f t st = some (r, st') → SeenDomLe st st' := by
  intro f
  induction f with
  | zero => intro t st r st' h; cases h
  | succ f ih =>
    intro t st r st' h
    rw [mgo_succ] at h
    exact mgoStep_seenDom heap b (mgo heap b f) ih t st r st' h

/-!
Structural transform, part 2: counting unregistered addresses.
-/

theorem countNone_le (s₁ s₂ : List (Nat × Nat)) (keys : List Nat)
    (h : ∀ x, (alGet s₂ x).isNone → (alGet s₁ x).isNone) :
    countNone s₂ keys ≤ countNone s₁ keys := by
  induction keys with
  | nil => exact Nat.le_refl _
  | cons a rest ih =>
    simp only [countNone]
    have hhead : (if (alGet s₂ a).isNone then 1 else 0)
        ≤ if (alGet s₁ a).isNone then 1 else 0 := by
      by_cases h2 : (alGet s₂ a).isNone
      · rw [if_pos h2, if_pos (h a h2)]
      · rw [if_neg h2]
        omega
    omega

theorem countNone_lt (s₁ s₂ : List (Nat × Nat)) (keys : List Nat)
    (h : ∀ x, (alGet s₂ x).isNone → (alGet s₁ x).isNone)
    (a : Nat) (ha : a ∈ keys)
    (h₁ : (alGet s₁ a).isNone = true) (h₂ : (alGet s₂ a).isNone = false) :
    countNone s₂ keys < countNone s₁ keys := by
  induction keys with
  | nil => simp at ha
  | cons x rest ih =>
    simp only [countNone]
    have hrest : countNone s₂ rest ≤ countNone s₁ rest :=
      countNone_le s₁ s₂ rest h
    rcases List.mem_cons.mp ha with he | hm
    · subst he
      rw [if_pos h₁, h₂]
      simp only [Bool.false_eq_true, if_false]
      omega
    · have hstrict := ih hm
      have hhead : (if (alGet s₂ x).isNone then 1 else 0)
          ≤ if (alGet s₁ x).isNone then 1 else 0 := by
        by_cases h2 : (alGet s₂ x).isNone
        · rw [if_pos h2, if_pos (h x h2)]
        · rw [if_neg h2]
          omega
      omega

theorem countNone_pos (seen : List (Nat × Nat)) (keys : List Nat)
    (a : Nat) (ha : a ∈ keys) (h : (alGet seen a).isNone = true) :
    1 ≤ countNone seen keys := by
  induction keys with
  | nil => simp at ha
  | cons x rest ih =>
    simp only [countNone]
    rcases List.mem_cons.mp ha with he | hm
    · subst he
      rw [if_pos h]
      omega
    · have := ih hm
      omega

theorem unseen_le_of_seenDom (heap : List (Nat × INode)) {st st' : MState}
    (h : SeenDomLe st st') :
    unseenCount heap st' ≤ unseenCount heap st :=
  countNone_le st.seen st'.seen (heapKeys heap) h

theorem unseen_lt_of_registered (heap : List (Nat × INode)) {st st' : MState}
    (h : SeenDomLe st st') (a : Nat) (ha : a ∈ heapKeys heap)
    (h₁ : alGet st.seen a = none) (h₂ : (alGet st'.seen a).isSome) :
    unseenCount heap st' < unseenCount heap st := by
  refine countNone_lt st.seen st'.seen (heapKeys heap) h a ha ?_ ?_
  · rw [h₁]; rfl
  · cases hx : alGet st'.seen a with
    | none => rw [hx] at h₂; simp at h₂
    | some o => rfl

theorem alGet_register_self (seen : List (Nat × Nat)) (a o : Nat) :
    alGet ((a, o) :: seen) a = some o := by
  rw [alGet_cons_step, if_pos rfl]

/-!
Structural transform, part 3: totality of the converter at sufficient
fuel.
-/

theorem unseen_mapSetOut (heap : List (Nat × INode)) (st : MState)
    (o : Nat) (k : String) (v : Nat) :
    unseenCount heap (mapSetOut st o k v) = unseenCount heap st := by
  unfold unseenCount
  rw [seen_mapSetOut]

theorem unseen_listExtendOut (heap : List (Nat × INode)) (st : MState)
    (o v : Nat) :
    unseenCount heap (listExtendOut st o v) = unseenCount heap st := by
  unfold unseenCount
  rw [seen_listExtendOut]

theorem postFieldsGo_total (heap : List (Nat × INode))
    (g : Nat → MState → Option (Nat × MState)) (o U₀ : Nat)
    (hdom : ∀ c s oc s', g c s = some (oc, s') → SeenDomLe s s') :
    ∀ (fields : List (String × Nat)) (st : MState),
      (∀ k c s, (k, c) ∈ fields → unseenCount heap s ≤ U₀ → (g c s).isSome) →
      unseenCount heap st ≤ U₀ →
      (postFieldsGo g o fields st).isSome := by
  intro fields
  induction fields with
  | nil => intro st _ _; simp [postFieldsGo]
  | cons kc rest ih =>
    intro st hsucc hU
    obtain ⟨k, c⟩ := kc
    simp only [postFieldsGo]
    have h1 := hsucc k c st (List.mem_cons_self _ _) hU
    split
    · rename_i heq
      rw [heq] at h1
      simp at h1
    · rename_i oc st₁ heq
      refine ih _ (fun k' c' s hm hU' => hsucc k' c' s (List.mem_cons_of_mem _ hm) hU') ?_
      rw [unseen_mapSetOut]
      exact le_trans (unseen_le_of_seenDom heap (hdom c st oc st₁ heq)) hU

theorem postItemsGo_total (heap : List (Nat × INode))
    (g : Nat → MState → Option (Nat × MState)) (o U₀ : Nat)
    (hdom : ∀ c s oc s', g c s = some (oc, s') → SeenDomLe s s') :
    ∀ (items : List Nat) (st : MState),
      (∀ c s, c ∈ items → unseenCount heap s ≤ U₀ → (g c s).isSome) →
      unseenCount heap st ≤ U₀ →
      (postItemsGo g o items st).isSome := by
  intro items
  induction items with
  | nil => intro st _ _; simp [postItemsGo]
  | cons c rest ih =>
    intro st hsucc hU
    simp only [postItemsGo]
    have h1 := hsucc c st (List.mem_cons_self _ _) hU
    split
    · rename_i heq
      rw [heq] at h1
      simp at h1
    · rename_i oc st₁ heq
      refine ih _ (fun c' s hm hU' => hsucc c' s (List.mem_cons_of_mem _ hm) hU') ?_
      rw [unseen_listExtendOut]
      exact le_trans (unseen_le_of_seenDom heap (hdom c st oc st₁ heq)) hU

theorem convItemsGo_total (heap : List (Nat × INode))
    (g : Nat → MState → Option (Nat × MState)) (U₀ : Nat)
    (hdom : ∀ c s oc s', g c s = some (oc, s') → SeenDomLe s s') :
    ∀ (items : List Nat) (st : MState),
      (∀ c s, c ∈ items → unseenCount heap s ≤ U₀ → (g c s).isSome) →
      unseenCount heap st ≤ U₀ →
      (convItemsGo g items st).isSome := by
  intro items
  induction items with
  | nil => intro st _ _; simp [convItemsGo]
  | cons c rest ih =>
    intro st hsucc hU
    simp only [convItemsGo]
    have h1 := hsucc c st (List.mem_cons_self _ _) hU
    split
    · rename_i heq
      rw [heq] at h1
      simp at h1
    · rename_i oc st₁ heq
      have h2 := ih st₁
        (fun c' s hm hU' => hsucc c' s (List.mem_cons_of_mem _ hm) hU')
        (le_trans (unseen_le_of_seenDom heap (hdom c st oc st₁ heq)) hU)
      split
      · rename_i heq2
        rw [heq2] at h2
        simp at h2
      · simp

theorem postPairsGo_total (heap : List (Nat × INode))
    (p : Nat → Nat → MState → Option (Nat × MState)) (U₀ : Nat)
    (hdom : ∀ po ia s r s', p po ia s = some (r, s') → SeenDomLe s s') :
    ∀ (pairs : List (Nat × Nat)) (st : MState),
      (∀ po ia s, (po, ia) ∈ pairs → unseenCount heap s ≤ U₀ →
        (p po ia s).isSome) →
      unseenCount heap st ≤ U₀ →
      (postPairsGo p pairs st).isSome := by
  intro pairs
  induction pairs with
  | nil => intro st _ _; simp [postPairsGo]
  | cons pr rest ih =>
    intro st hsucc hU
    obtain ⟨po, ia⟩ := pr
    simp only [postPairsGo]
    have h1 := hsucc po ia st (List.mem_cons_self _ _) hU
    split
    · rename_i heq
      rw [heq] at h1
      simp at h1
    · rename_i r st₁ heq
      exact ih _ (fun po' ia' s hm hU' => hsucc po' ia' s (List.mem_cons_of_mem _ hm) hU')
        (le_trans (unseen_le_of_seenDom heap (hdom po ia st r st₁ heq)) hU)

theorem conv_measure_le (heap : List (Nat × INode)) (rk : Nat → Nat)
    (R c : Nat) (s : MState) :
    taskMeasure heap rk R (MTask.conv c) s
      ≤ unseenCount heap s * (2 * R + 6) + rk c + 2 := by
  simp only [taskMeasure]
  split
  · linarith [Nat.zero_le (unseenCount heap s * (2 * R + 6))]
  · split
    · exact Nat.le_refl _
    · linarith [Nat.zero_le (rk c)]

theorem post_measure_eq (heap : List (Nat × INode)) (rk : Nat → Nat)
    (R po ia : Nat) (s : MState) :
    taskMeasure heap rk R (MTask.post po ia) s
      = unseenCount heap s * (2 * R + 6) + R + 3 + rk ia := rfl

theorem mul_split_pred (U K : Nat) (h : 1 ≤ U) :
    U * K = (U - 1) * K + K := by
  cases U with
  | zero => omega
  | succ u => simp [Nat.succ_sub_one, Nat.succ_mul]

theorem mgo_total (heap : List (Nat × INode)) (b : Bool) (rk : Nat → Nat)
    (R : Nat) (hclosed : ClosedHeap heap) (hrank : TupleRanked heap rk R) :
    ∀ (f : Nat) (t : MTask) (st : MState),
      TaskAddrOK heap t →
      taskMeasure heap rk R t st < f →
      (mgo heap b f t st).isSome := by
  intro f
  induction f with
  | zero => intro t st _ hm; exact absurd hm (Nat.not_lt_zero _)
  | succ f ih =>
    intro t st htask hmeas
    rw [mgo_succ]
    cases t with
    | conv a =>
      have hmem : a ∈ heapKeys heap := htask
      simp only [mgoStep]
      split
      · simp
      · rename_i hseen
        have hU1 : 1 ≤ unseenCount heap st :=
          countNone_pos st.seen (heapKeys heap) a hmem (by rw [hseen]; rfl)
        have hKsplit := mul_split_pred (unseenCount heap st) (2 * R + 6) hU1
        split
        · rename_i hnone
          have hs := alGet_isSome_of_mem_keys (l := heap) hmem
          rw [hnone] at hs
          simp at hs
        · simp
        · rename_i fields hnode
          have hme : unseenCount heap st * (2 * R + 6) + 1 < f + 1 := by
            have heqm : taskMeasure heap rk R (MTask.conv a) st
                = unseenCount heap st * (2 * R + 6) + 1 := by
              simp [taskMeasure, hseen, hnode]
            rw [heqm] at hmeas
            exact hmeas
          have hpair : (a, INode.mapN fields) ∈ heap := alGet_mem hnode
          have hreg : SeenDomLe st
              { seen := (a, st.next) :: st.seen
                out := st.out ++ [(st.next, ONode.mapN b [])]
                next := st.next + 1 } :=
            seenDomLe_register st a st.next _ _
          have hUreg : unseenCount heap
              { seen := (a, st.next) :: st.seen
                out := st.out ++ [(st.next, ONode.mapN b [])]
                next := st.next + 1 } ≤ unseenCount heap st - 1 := by
            have := unseen_lt_of_registered heap hreg a hmem hseen
              (by rw [alGet_register_self]; rfl)
            omega
          have htot := postFieldsGo_total heap
            (fun c s => mgo heap b f (MTask.conv c) s) st.next
            (unseenCount heap st - 1)
            (fun c s oc s' h => mgo_seenDom heap b f (MTask.conv c) s oc s' h)
            fields _
            (fun k c s hm hU => by
              have hck : c ∈ heapKeys heap :=
                hclosed (a, INode.mapN fields) hpair c
                  (List.mem_map_of_mem Prod.snd hm)
              refine ih (MTask.conv c) s hck ?_
              have hb := conv_measure_le heap rk R c s
              have hrkc : rk c ≤ R := hrank.1 c hck
              have hmul : unseenCount heap s * (2 * R + 6)
                  ≤ (unseenCount heap st - 1) * (2 * R + 6) :=
                Nat.mul_le_mul_right _ hU
              linarith)
            hUreg
          split
          · rename_i heq
            rw [heq] at htot
            simp at htot
          · simp
        · rename_i items hnode
          have hme : unseenCount heap st * (2 * R + 6) + 1 < f + 1 := by
            have heqm : taskMeasure heap rk R (MTask.conv a) st
                = unseenCount heap st * (2 * R + 6) + 1 := by
              simp [taskMeasure, hseen, hnode]
            rw [heqm] at hmeas
            exact hmeas
          have hpair : (a, INode.listN items) ∈ heap := alGet_mem hnode
          have hreg : SeenDomLe st
              { seen := (a, st.next) :: st.seen
                out := st.out ++ [(st.next, ONode.listN [])]
                next := st.next + 1 } :=
            seenDomLe_register st a st.next _ _
          have hUreg : unseenCount heap
              { seen := (a, st.next) :: st.seen
                out := st.out ++ [(st.next, ONode.listN [])]
                next := st.next + 1 } ≤ unseenCount heap st - 1 := by
            have := unseen_lt_of_registered heap hreg a hmem hseen
              (by rw [alGet_register_self]; rfl)
            omega
          have htot := postItemsGo_total heap
            (fun c s => mgo heap b f (MTask.conv c) s) st.next
            (unseenCount heap st - 1)
            (fun c s oc s' h => mgo_seenDom heap b f (MTask.conv c) s oc s' h)
            items _
            (fun c s hm hU => by
              have hck : c ∈ heapKeys heap :=
                hclosed (a, INode.listN items) hpair c hm
              refine ih (MTask.conv c) s hck ?_
              have hb := conv_measure_le heap rk R c s
              have hrkc : rk c ≤ R := hrank.1 c hck
              have hmul : unseenCount heap s * (2 * R + 6)
                  ≤ (unseenCount heap st - 1) * (2 * R + 6) :=
                Nat.mul_le_mul_right _ hU
              linarith)
            hUreg
          split
          · rename_i heq
            rw [heq] at htot
            simp at htot
          · simp
        · rename_i items hnode
          have hme : unseenCount heap st * (2 * R + 6) + rk a + 2 < f + 1 := by
            have heqm : taskMeasure heap rk R (MTask.conv a) st
                = unseenCount heap st * (2 * R + 6) + rk a + 2 := by
              simp [taskMeasure, hseen, hnode]
            rw [heqm] at hmeas
            exact hmeas
          have hpair : (a, INode.tupN items) ∈ heap := alGet_mem hnode
          have htot := convItemsGo_total heap
            (fun c s => mgo heap b f (MTask.conv c) s)
            (unseenCount heap st)
            (fun c s oc s' h => mgo_seenDom heap b f (MTask.conv c) s oc s' h)
            items st
            (fun c s hm hU => by
              have hck : c ∈ heapKeys heap :=
                hclosed (a, INode.tupN items) hpair c hm
              refine ih (MTask.conv c) s hck ?_
              have hb := conv_measure_le heap rk R c s
              have hrkc : rk c < rk a :=
                hrank.2 (a, INode.tupN items) hpair items rfl c hm
              have hmul : unseenCount heap s * (2 * R + 6)
                  ≤ unseenCount heap st * (2 * R + 6) :=
                Nat.mul_le_mul_right _ hU
              linarith)
            (Nat.le_refl _)
          split
          · rename_i heq
            rw [heq] at htot
            simp at htot
          · rename_i ocs st₁ heq
            have hdom₁ : SeenDomLe st st₁ :=
              convItemsGo_seenDom _ (fun c s oc s' h =>
                mgo_seenDom heap b f (MTask.conv c) s oc s' h) items st ocs st₁ heq
            have hreg : SeenDomLe st
                { seen := (a, st₁.next) :: st₁.seen
                  out := st₁.out ++ [(st₁.next, ONode.tupN ocs)]
                  next := st₁.next + 1 } :=
              seenDomLe_trans hdom₁ (seenDomLe_register st₁ a st₁.next _ _)
            have hUreg : unseenCount heap
                { seen := (a, st₁.next) :: st₁.seen
                  out := st₁.out ++ [(st₁.next, ONode.tupN ocs)]
                  next := st₁.next + 1 } ≤ unseenCount heap st - 1 := by
              have := unseen_lt_of_registered heap hreg a hmem hseen
                (by rw [alGet_register_self]; rfl)
              omega
            have htot2 := postPairsGo_total heap
              (fun po ia s => mgo heap b f (MTask.post po ia) s)
              (unseenCount heap st - 1)
              (fun po ia s r s' h =>
                mgo_seenDom heap b f (MTask.post po ia) s r s' h)
              (ocs.zip items) _
              (fun po ia s hm hU => by
                have hia : ia ∈ items := (List.of_mem_zip hm).2
                have hck : ia ∈ heapKeys heap :=
                  hclosed (a, INode.tupN items) hpair ia hia
                refine ih (MTask.post po ia) s hck ?_
                rw [post_measure_eq]
                have hrkc : rk ia ≤ R := hrank.1 ia hck
                have hmul : unseenCount heap s * (2 * R + 6)
                    ≤ (unseenCount heap st - 1) * (2 * R + 6) :=
                  Nat.mul_le_mul_right _ hU
                linarith)
              hUreg
            split
            · rename_i heq2
              rw [heq2] at htot2
              simp at htot2
            · simp
    | post po ia =>
      have hmem : ia ∈ heapKeys heap := htask
      rw [post_measure_eq] at hmeas
      simp only [mgoStep]
      split
      · rename_i hnone
        have hs := alGet_isSome_of_mem_keys (l := heap) hmem
        rw [hnone] at hs
        simp at hs
      · simp
      · rename_i fields hnode
        have hpair : (ia, INode.mapN fields) ∈ heap := alGet_mem hnode
        have htot := postFieldsGo_total heap
          (fun c s => mgo heap b f (MTask.conv c) s) po
          (unseenCount heap st)
          (fun c s oc s' h => mgo_seenDom heap b f (MTask.conv c) s oc s' h)
          fields st
          (fun k c s hm hU => by
            have hck : c ∈ heapKeys heap :=
              hclosed (ia, INode.mapN fields) hpair c
                (List.mem_map_of_mem Prod.snd hm)
            refine ih (MTask.conv c) s hck ?_
            have hb := conv_measure_le heap rk R c s
            have hrkc : rk c ≤ R := hrank.1 c hck
            have hmul : unseenCount heap s * (2 * R + 6)
                ≤ unseenCount heap st * (2 * R + 6) :=
              Nat.mul_le_mul_right _ hU
            linarith)
          (Nat.le_refl _)
        split
        · rename_i heq
          rw [heq] at htot
          simp at htot
        · simp
      · rename_i items hnode
        have hpair : (ia, INode.listN items) ∈ heap := alGet_mem hnode
        have htot := postItemsGo_total heap
          (fun c s => mgo heap b f (MTask.conv c) s) po
          (unseenCount heap st)
          (fun c s oc s' h => mgo_seenDom heap b f (MTask.conv c) s oc s' h)
          items st
          (fun c s hm hU => by
            have hck : c ∈ heapKeys heap :=
              hclosed (ia, INode.listN items) hpair c hm
            refine ih (MTask.conv c) s hck ?_
            have hb := conv_measure_le heap rk R c s
            have hrkc : rk c ≤ R := hrank.1 c hck
            have hmul : unseenCount heap s * (2 * R + 6)
                ≤ unseenCount heap st * (2 * R + 6) :=
              Nat.mul_le_mul_right _ hU
            linarith)
          (Nat.le_refl _)
        split
        · rename_i heq
          rw [heq] at htot
          simp at htot
        · simp
      · rename_i items hnode
        have hpair : (ia, INode.tupN items) ∈ heap := alGet_mem hnode
        split
        · rename_i ocs hout
          have htot := postPairsGo_total heap
            (fun p i s => mgo heap b f (MTask.post p i) s)
            (unseenCount heap st)
            (fun p i s r s' h => mgo_seenDom heap b f (MTask.post p i) s r s' h)
            (ocs.zip items) st
            (fun po' ia' s hm hU => by
              have hia : ia' ∈ items := (List.of_mem_zip hm).2
              have hck : ia' ∈ heapKeys heap :=
                hclosed (ia, INode.tupN items) hpair ia' hia
              refine ih (MTask.post po' ia') s hck ?_
              rw [post_measure_eq]
              have hrkc : rk ia' < rk ia :=
                hrank.2 (ia, INode.tupN items) hpair items rfl ia' hia
              have hmul : unseenCount heap s * (2 * R + 6)
                  ≤ unseenCount heap st * (2 * R + 6) :=
                Nat.mul_le_mul_right _ hU
              linarith)
            (Nat.le_refl _)
          split
          · rename_i heq
            rw [heq] at htot
            simp at htot
          · simp
        · simp

/-!
Structural transform, part 4: every address a task registers has rank at
most the rank of some child the task recurses into, so under RankSafe a
tuple conversion can never re-register the tuple itself.
-/

theorem postFieldsGo_reg (rk : Nat → Nat)
    (g : Nat → MState → Option (Nat × MState)) (o : Nat)
    (hgreg : ∀ c s oc s', g c s = some (oc, s') →
      ∀ x, alGet s.seen x = none → (alGet s'.seen x).isSome → rk x ≤ rk c) :
    ∀ (fields : List (String × Nat)) (st st' : MState),
      postFieldsGo g o fields st = some st' →
      ∀ x, alGet st.seen x = none → (alGet st'.seen x).isSome →
        ∃ k c, (k, c) ∈ fields ∧ rk x ≤ rk c := by
  intro fields
  induction fields with
  | nil =>
    intro st st' h x hx1 hx2
    injection h with h1
    subst h1
    rw [hx1] at hx2
    simp at hx2
  | cons kc rest ih =>
    intro st st' h x hx1 hx2
    obtain ⟨k, c⟩ := kc
    simp only [postFieldsGo] at h
    split at h
    · cases h
    · rename_i oc st₁ heq
      cases hmid : alGet st₁.seen x with
      | some ox =>
        exact ⟨k, c, List.mem_cons_self _ _,
          hgreg c st oc st₁ heq x hx1 (by rw [hmid]; rfl)⟩
      | none =>
        have hmid' : alGet (mapSetOut st₁ o k oc).seen x = none := by
          rw [seen_mapSetOut]
          exact hmid
        obtain ⟨k', c', hm, hr⟩ := ih _ _ h x hmid' hx2
        exact ⟨k', c', List.mem_cons_of_mem _ hm, hr⟩

theorem postItemsGo_reg (rk : Nat → Nat)
    (g : Nat → MState → Option (Nat × MState)) (o : Nat)
    (hgreg : ∀ c s oc s', g c s = some (oc, s') →
      ∀ x, alGet s.seen x = none → (alGet s'.seen x).isSome → rk x ≤ rk c) :
    ∀ (items : List Nat) (st st' : MState),
      postItemsGo g o items st = some st' →
      ∀ x, alGet st.seen x = none → (alGet st'.seen x).isSome →
        ∃ c, c ∈ items ∧ rk x ≤ rk c := by
  intro items
  induction items with
  | nil =>
    intro st st' h x hx1 hx2
    injection h with h1
    subst h1
    rw [hx1] at hx2
    simp at hx2
  | cons c rest ih =>
    intro st st' h x hx1 hx2
    simp only [postItemsGo] at h
    split at h
    · cases h
    · rename_i oc st₁ heq
      cases hmid : alGet st₁.seen x with
      | some ox =>
        exact ⟨c, List.mem_cons_self _ _,
          hgreg c st oc st₁ heq x hx1 (by rw [hmid]; rfl)⟩
      | none =>
        have hmid' : alGet (listExtendOut st₁ o oc).seen x = none := by
          rw [seen_listExtendOut]
          exact hmid
        obtain ⟨c', hm, hr⟩ := ih _ _ h x hmid' hx2
        exact ⟨c', List.mem_cons_of_mem _ hm, hr⟩

theorem convItemsGo_reg (rk : Nat → Nat)
    (g : Nat → MState → Option (Nat × MState))
    (hgreg : ∀ c s oc s', g c s = some (oc, s') →
      ∀ x, alGet s.seen x = none → (alGet s'.seen x).isSome → rk x ≤ rk c) :
    ∀ (items : List Nat) (st : MState) (ocs : List Nat) (st' : MState),
      convItemsGo g items st = some (ocs, st') →
      ∀ x, alGet st.seen x = none → (alGet st'.seen x).isSome →
        ∃ c, c ∈ items ∧ rk x ≤ rk c := by
  intro items
  induction items with
  | nil =>
    intro st ocs st' h x hx1 hx2
    injection h with h1
    injection h1 with h2 h3
    subst h3
    rw [hx1] at hx2
    simp at hx2
  | cons c rest ih =>
    intro st ocs st' h x hx1 hx2
    simp only [convItemsGo] at h
    split at h
    · cases h
    · rename_i oc st₁ heq
      split at h
      · cases h
      · rename_i ocs₂ st₂ heq2
        injection h with h1
        injection h1 with h2 h3
        subst h3
        cases hmid : alGet st₁.seen x with
        | some ox =>
          exact ⟨c, List.mem_cons_self _ _,
            hgreg c st oc st₁ heq x hx1 (by rw [hmid]; rfl)⟩
        | none =>
          obtain ⟨c', hm, hr⟩ := ih _ _ _ heq2 x hmid hx2
          exact ⟨c', List.mem_cons_of_mem _ hm, hr⟩

theorem postPairsGo_reg (rk : Nat → Nat)
    (p : Nat → Nat → MState → Option (Nat × MState))
    (hpreg : ∀ po ia s r s', p po ia s = some (r, s') →
      ∀ x, alGet s.seen x = none → (alGet s'.seen x).isSome → rk x ≤ rk ia) :
    ∀ (pairs : List (Nat × Nat)) (st st' : MState),
      postPairsGo p pairs st = some st' →
      ∀ x, alGet st.seen x = none → (alGet st'.seen x).isSome →
        ∃ po ia, (po, ia) ∈ pairs ∧ rk x ≤ rk ia := by
  intro pairs
  induction pairs with
  | nil =>
    intro st st' h x hx1 hx2
    injection h with h1
    subst h1
    rw [hx1] at hx2
    simp at hx2
  | cons pr rest ih =>
    intro st st' h x hx1 hx2
    obtain ⟨po, ia⟩ := pr
    simp only [postPairsGo] at h
    split at h
    · cases h
    · rename_i r st₁ heq
      cases hmid : alGet st₁.seen x with
      | some ox =>
        exact ⟨po, ia, List.mem_cons_self _ _,
          hpreg po ia st r st₁ heq x hx1 (by rw [hmid]; rfl)⟩
      | none =>
        obtain ⟨po', ia', hm, hr⟩ := ih _ _ h x hmid hx2
        exact ⟨po', ia', List.mem_cons_of_mem _ hm, hr⟩

theorem alGet_register_other {seen : List (Nat × Nat)} {a o x : Nat}
    (h : ¬ a = x) : alGet ((a, o) :: seen) x = alGet seen x := by
  rw [alGet_cons_step, if_neg h]

theorem mgo_regBound (heap : List (Nat × INode)) (b : Bool) (rk : Nat → Nat)
    (hsafe : RankSafe heap rk) :
    ∀ (f : Nat) (t : MTask) (st : MState) (r : Nat) (st' : MState),
      mgo heap b f t st = some (r, st') →
      ∀ x, alGet st.seen x = none → (alGet st'.seen x).isSome →
        rk x ≤ taskRank rk t := by
  intro f
  induction f with
  | zero => intro t st r st' h; cases h
  | succ f ih =>
    have ihc : ∀ c s oc s', mgo heap b f (MTask.conv c) s = some (oc, s') →
        ∀ x, alGet s.seen x = none → (alGet s'.seen x).isSome → rk x ≤ rk c :=
      fun c s oc s' h => ih (MTask.conv c) s oc s' h
    have ihp : ∀ po ia s r s', mgo heap b f (MTask.post po ia) s = some (r, s') →
        ∀ x, alGet s.seen x = none → (alGet s'.seen x).isSome → rk x ≤ rk ia :=
      fun po ia s r s' h => ih (MTask.post po ia) s r s' h
    intro t st r st' h x hx1 hx2
    rw [mgo_succ] at h
    cases t with
    | conv a =>
      show rk x ≤ rk a
      simp only [mgoStep] at h
      split at h
      · injection h with h1
        injection h1 with h2 h3
        subst h3
        rw [hx1] at hx2
        simp at hx2
      · rename_i hseen
        split at h
        · cases h
        · rename_i v heq
          injection h with h1
          injection h1 with h2 h3
          subst h3
          by_cases hax : a = x
          · subst hax
            exact Nat.le_refl _
          · have hx2' : (alGet ((a, st.next) :: st.seen) x).isSome = true := hx2
            rw [alGet_register_other hax, hx1] at hx2'
            simp at hx2'
        · rename_i fields heq
          split at h
          · cases h
          · rename_i st₂ heq2
            injection h with h1
            injection h1 with h2 h3
            subst h3
            by_cases hax : a = x
            · subst hax
              exact Nat.le_refl _
            · have hx1' : alGet ((a, st.next) :: st.seen) x = none := by
                rw [alGet_register_other hax]
                exact hx1
              obtain ⟨k, c, hm, hr⟩ :=
                postFieldsGo_reg rk _ st.next ihc fields _ _ heq2 x hx1' hx2
              have hle : rk c ≤ rk a := by
                have := hsafe (a, INode.mapN fields) (alGet_mem heq) c
                  (List.mem_map_of_mem Prod.snd hm)
                simpa using this
              exact le_trans hr hle
        · rename_i items heq
          split at h
          · cases h
          · rename_i st₂ heq2
            injection h with h1
            injection h1 with h2 h3
            subst h3
            by_cases hax : a = x
            · subst hax
              exact Nat.le_refl _
            · have hx1' : alGet ((a, st.next) :: st.seen) x = none := by
                rw [alGet_register_other hax]
                exact hx1
              obtain ⟨c, hm, hr⟩ :=
                postItemsGo_reg rk _ st.next ihc items _ _ heq2 x hx1' hx2
              have hle : rk c ≤ rk a := by
                have := hsafe (a, INode.listN items) (alGet_mem heq) c hm
                simpa using this
              exact le_trans hr hle
        · rename_i items heq
          split at h
          · cases h
          · rename_i ocs st₁ heq2
            split at h
            · cases h
            · rename_i st₃ heq3
              injection h with h1
              injection h1 with h2 h3
              subst h3
              have hchild : ∀ c, c ∈ items → rk c < rk a := by
                intro c hm
                have := hsafe (a, INode.tupN items) (alGet_mem heq) c hm
                simpa using this
              cases hmid : alGet st₁.seen x with
              | some ox =>
                obtain ⟨c, hm, hr⟩ :=
                  convItemsGo_reg rk _ ihc items st ocs st₁ heq2 x hx1
                    (by rw [hmid]; rfl)
                exact le_trans hr (Nat.le_of_lt (hchild c hm))
              | none =>
                by_cases hax : a = x
                · subst hax
                  exact Nat.le_refl _
                · have hx1' : alGet ((a, st₁.next) :: st₁.seen) x = none := by
                    rw [alGet_register_other hax]
                    exact hmid
                  obtain ⟨po', ia', hm, hr⟩ :=
                    postPairsGo_reg rk _ ihp (ocs.zip items) _ _ heq3 x hx1' hx2
                  have hia : ia' ∈ items := (List.of_mem_zip hm).2
                  exact le_trans hr (Nat.le_of_lt (hchild ia' hia))
    | post po ia =>
      show rk x ≤ rk ia
      simp only [mgoStep] at h
      split at h
      · cases h
      · rename_i v heq
        injection h with h1
        injection h1 with h2 h3
        subst h3
        rw [hx1] at hx2
        simp at hx2
      · rename_i fields heq
        split at h
        · cases h
        · rename_i st₁ heq2
          injection h with h1
          injection h1 with h2 h3
          subst h3
          obtain ⟨k, c, hm, hr⟩ :=
            postFieldsGo_reg rk _ po ihc fields _ _ heq2 x hx1 hx2
          have hle : rk c ≤ rk ia := by
            have := hsafe (ia, INode.mapN fields) (alGet_mem heq) c
              (List.mem_map_of_mem Prod.snd hm)
            simpa using this
          exact le_trans hr hle
      · rename_i items heq
        split at h
        · cases h
        · rename_i st₁ heq2
          injection h with h1
          injection h1 with h2 h3
          subst h3
          obtain ⟨c, hm, hr⟩ :=
            postItemsGo_reg rk _ po ihc items _ _ heq2 x hx1 hx2
          have hle : rk c ≤ rk ia := by
            have := hsafe (ia, INode.listN items) (alGet_mem heq) c hm
            simpa using this
          exact le_trans hr hle
      · rename_i items heq
        split at h
        · rename_i ocs heq2
          split at h
          · cases h
          · rename_i st₁ heq3
            injection h with h1
            injection h1 with h2 h3
            subst h3
            obtain ⟨po', ia', hm, hr⟩ :=
              postPairsGo_reg rk _ ihp (ocs.zip items) _ _ heq3 x hx1 hx2
            have hia : ia' ∈ items := (List.of_mem_zip hm).2
            have hlt : rk ia' < rk ia := by
              have := hsafe (ia, INode.tupN items) (alGet_mem heq) ia' hia
              simpa using this
            exact le_trans hr (Nat.le_of_lt hlt)
        · injection h with h1
          injection h1 with h2 h3
          subst h3
          rw [hx1] at hx2
          simp at hx2

/-!
Structural transform, part 5: under RankSafe the seen table never
shadows an existing binding, so recorded conversions are stable, and
every conversion ends registered.
-/

theorem postFieldsGo_rel (Rel : MState → MState → Prop)
    (htrans : ∀ {s₁ s₂ s₃ : MState}, Rel s₁ s₂ → Rel s₂ s₃ → Rel s₁ s₃)
    (hrefl : ∀ s, Rel s s)
    (hms : ∀ s o' k v, Rel s (mapSetOut s o' k v))
    (g : Nat → MState → Option (Nat × MState))
    (hg : ∀ c s oc s', g c s = some (oc, s') → Rel s s') (o : Nat) :
    ∀ (fields : List (String × Nat)) (st st' : MState),
      postFieldsGo g o fields st = some st' → Rel st st' := by
  intro fields
  induction fields with
  | nil =>
    intro st st' h
    injection h with h1
    subst h1
    exact hrefl st
  | cons kc rest ih =>
    intro st st' h
    obtain ⟨k, c⟩ := kc
    simp only [postFieldsGo] at h
    split at h
    · cases h
    · rename_i oc st₁ heq
      exact htrans (hg c st oc st₁ heq) (htrans (hms st₁ o k oc) (ih _ _ h))

theorem postItemsGo_rel (Rel : MState → MState → Prop)
    (htrans : ∀ {s₁ s₂ s₃ : MState}, Rel s₁ s₂ → Rel s₂ s₃ → Rel s₁ s₃)
    (hrefl : ∀ s, Rel s s)
    (hle : ∀ s o' v, Rel s (listExtendOut s o' v))
    (g : Nat → MState → Option (Nat × MState))
    (hg : ∀ c s oc s', g c s = some (oc, s') → Rel s s') (o : Nat) :
    ∀ (items : List Nat) (st st' : MState),
      postItemsGo g o items st = some st' → Rel st st' := by
  intro items
  induction items with
  | nil =>
    intro st st' h
    injection h with h1
    subst h1
    exact hrefl st
  | cons c rest ih =>
    intro st st' h
    simp only [postItemsGo] at h
    split at h
    · cases h
    · rename_i oc st₁ heq
      exact htrans (hg c st oc st₁ heq) (htrans (hle st₁ o oc) (ih _ _ h))

theorem convItemsGo_rel (Rel : MState → MState → Prop)
    (htrans : ∀ {s₁ s₂ s₃ : MState}, Rel s₁ s₂ → Rel s₂ s₃ → Rel s₁ s₃)
    (hrefl : ∀ s, Rel s s)
    (g : Nat → MState → Option (Nat × MState))
    (hg : ∀ c s oc s', g c s = some (oc, s') → Rel s s') :
    ∀ (items : List Nat) (st : MState) (ocs : List Nat) (st' : MState),
      convItemsGo g items st = some (ocs, st') → Rel st st' := by
  intro items
  induction items with
  | nil =>
    intro st ocs st' h
    injection h with h1
    injection h1 with h2 h3
    subst h3
    exact hrefl st
  | cons c rest ih =>
    intro st ocs st' h
    simp only [convItemsGo] at h
    split at h
    · cases h
    · rename_i oc st₁ heq
      split at h
      · cases h
      · rename_i ocs₂ st₂ heq2
        injection h with h1
        injection h1 with h2 h3
        subst h3
        exact htrans (hg c st oc st₁ heq) (ih _ _ _ heq2)

theorem postPairsGo_rel (Rel : MState → MState → Prop)
    (htrans : ∀ {s₁ s₂ s₃ : MState}, Rel s₁ s₂ → Rel s₂ s₃ → Rel s₁ s₃)
    (hrefl : ∀ s, Rel s s)
    (p : Nat → Nat → MState → Option (Nat × MState))
    (hp : ∀ po ia s r s', p po ia s = some (r, s') → Rel s s') :
    ∀ (pairs : List (Nat × Nat)) (st st' : MState),
      postPairsGo p pairs st = some st' → Rel st st' := by
  intro pairs
  induction pairs with
  | nil =>
    intro st st' h
    injection h with h1
    subst h1
    exact hrefl st
  | cons pr rest ih =>
    intro st st' h
    obtain ⟨po, ia⟩ := pr
    simp only [postPairsGo] at h
    split at h
    · cases h
    · rename_i r st₁ heq
      exact htrans (hp po ia st r st₁ heq) (ih _ _ h)

theorem seenLe_refl (st : MState) : SeenLe st st := fun _ _ hx => hx

theorem seenLe_trans {s₁ s₂ s₃ : MState} (h₁ : SeenLe s₁ s₂)
    (h₂ : SeenLe s₂ s₃) : SeenLe s₁ s₃ :=
  fun x ox hx => h₂ x ox (h₁ x ox hx)

theorem seenLe_mapSetOut (s : MState) (o : Nat) (k : String) (v : Nat) :
    SeenLe s (mapSetOut s o k v) := by
  intro x ox hx
  rw [seen_mapSetOut]
  exact hx

theorem seenLe_listExtendOut (s : MState) (o v : Nat) :
    SeenLe s (listExtendOut s o v) := by
  intro x ox hx
  rw [seen_listExtendOut]
  exact hx

theorem seenLe_register {st : MState} {a : Nat} (o : Nat)
    (out' : List (Nat × ONode)) (n' : Nat) (h : alGet st.seen a = none) :
    SeenLe st { seen := (a, o) :: st.seen, out := out', next := n' } := by
  intro x ox hx
  show alGet ((a, o) :: st.seen) x = some ox
  by_cases hax : a = x
  · subst hax
    rw [h] at hx
    cases hx
  · rw [alGet_register_other hax]
    exact hx

theorem mgo_seenLe (heap : List (Nat × INode)) (b : Bool) (rk : Nat → Nat)
    (hsafe : RankSafe heap rk) :
    ∀ (f : Nat) (t : MTask) (st : MState) (r : Nat) (st' : MState),
      mgo heap b f t st = some (r, st') → SeenLe st st' := by
  intro f
  induction f with
  | zero => intro t st r st' h; cases h
  | succ f ih =>
    have ihc : ∀ c s oc s', (fun c s => mgo heap b f (MTask.conv c) s) c s
        = some (oc, s') → SeenLe s s' :=
      fun c s oc s' h => ih (MTask.conv c) s oc s' h
    have ihp : ∀ po ia s r s', (fun po ia s => mgo heap b f (MTask.post po ia) s)
        po ia s = some (r, s') → SeenLe s s' :=
      fun po ia s r s' h => ih (MTask.post po ia) s r s' h
    intro t st r st' h
    rw [mgo_succ] at h
    cases t with
    | conv a =>
      simp only [mgoStep] at h
      split at h
      · injection h with h1
        injection h1 with h2 h3
        subst h3
        exact seenLe_refl st
      · rename_i hseen
        split at h
        · cases h
        · rename_i v heq
          injection h with h1
          injection h1 with h2 h3
          subst h3
          exact seenLe_register st.next _ _ hseen
        · rename_i fields heq
          split at h
          · cases h
          · rename_i st₂ heq2
            injection h with h1
            injection h1 with h2 h3
            subst h3
            exact seenLe_trans (seenLe_register st.next _ _ hseen)
              (postFieldsGo_rel SeenLe seenLe_trans seenLe_refl
                seenLe_mapSetOut _ ihc _ _ _ _ heq2)
        · rename_i items heq
          split at h
          · cases h
          · rename_i st₂ heq2
            injection h with h1
            injection h1 with h2 h3
            subst h3
            exact seenLe_trans (seenLe_register st.next _ _ hseen)
              (postItemsGo_rel SeenLe seenLe_trans seenLe_refl
                seenLe_listExtendOut _ ihc _ _ _ _ heq2)
        · rename_i items heq
          split at h
          · cases h
          · rename_i ocs st₁ heq2
            split at h
            · cases h
            · rename_i st₃ heq3
              injection h with h1
              injection h1 with h2 h3
              subst h3
              have hnos : alGet st₁.seen a = none := by
                cases hmid : alGet st₁.seen a with
                | none => rfl
                | some p =>
                  obtain ⟨c, hm, hr⟩ := convItemsGo_reg rk _
                    (fun c s oc s' hh =>
                      mgo_regBound heap b rk hsafe f (MTask.conv c) s oc s' hh)
                    items st ocs st₁ heq2 a hseen (by rw [hmid]; rfl)
                  have hlt : rk c < rk a := by
                    have := hsafe (a, INode.tupN items) (alGet_mem heq) c hm
                    simpa using this
                  omega
              exact seenLe_trans
                (convItemsGo_rel SeenLe seenLe_trans seenLe_refl _ ihc
                  items st ocs st₁ heq2)
                (seenLe_trans (seenLe_register st₁.next _ _ hnos)
                  (postPairsGo_rel SeenLe seenLe_trans seenLe_refl _ ihp
                    _ _ _ heq3))
    | post po ia =>
      simp only [mgoStep] at h
      split at h
      · cases h
      · rename_i v heq
        injection h with h1
        injection h1 with h2 h3
        subst h3
        exact seenLe_refl st
      · rename_i fields heq
        split at h
        · cases h
        · rename_i st₁ heq2
          injection h with h1
          injection h1 with h2 h3
          subst h3
          exact postFieldsGo_rel SeenLe seenLe_trans seenLe_refl
            seenLe_mapSetOut _ ihc _ _ _ _ heq2
      · rename_i items heq
        split at h
        · cases h
        · rename_i st₁ heq2
          injection h with h1
          injection h1 with h2 h3
          subst h3
          exact postItemsGo_rel SeenLe seenLe_trans seenLe_refl
            seenLe_listExtendOut _ ihc _ _ _ _ heq2
      · rename_i items heq
        split at h
        · rename_i ocs heq2
          split at h
          · cases h
          · rename_i st₁ heq3
            injection h with h1
            injection h1 with h2 h3
            subst h3
            exact postPairsGo_rel SeenLe seenLe_trans seenLe_refl _ ihp
              _ _ _ heq3
        · injection h with h1
          injection h1 with h2 h3
          subst h3
          exact seenLe_refl st

theorem nextLe_mapSetOut (s : MState) (o : Nat) (k : String) (v : Nat) :
    s.next ≤ (mapSetOut s o k v).next := by
  rw [next_mapSetOut]

theorem nextLe_listExtendOut (s : MState) (o v : Nat) :
    s.next ≤ (listExtendOut s o v).next := by
  rw [next_listExtendOut]

theorem mgo_nextLe (heap : List (Nat × INode)) (b : Bool) :
    ∀ (f : Nat) (t : MTask) (st : MState) (r : Nat) (st' : MState),
      mgo heap b f t st = some (r, st') → st.next ≤ st'.next := by
  have htrans : ∀ {s₁ s₂ s₃ : MState}, s₁.next ≤ s₂.next → s₂.next ≤ s₃.next →
      s₁.next ≤ s₃.next := fun h₁ h₂ => le_trans h₁ h₂
  have hrefl : ∀ s : MState, s.next ≤ s.next := fun s => Nat.le_refl _
  intro f
  induction f with
  | zero => intro t st r st' h; cases h
  | succ f ih =>
    have ihc : ∀ c s oc s', (fun c s => mgo heap b f (MTask.conv c) s) c s
        = some (oc, s') → s.next ≤ s'.next :=
      fun c s oc s' h => ih (MTask.conv c) s oc s' h
    have ihp : ∀ po ia s r s', (fun po ia s => mgo heap b f (MTask.post po ia) s)
        po ia s = some (r, s') → s.next ≤ s'.next :=
      fun po ia s r s' h => ih (MTask.post po ia) s r s' h
    intro t st r st' h
    rw [mgo_succ] at h
    cases t with
    | conv a =>
      simp only [mgoStep] at h
      split at h
      · injection h with h1
        injection h1 with h2 h3
        subst h3
        exact hrefl st
      · rename_i hseen
        split at h
        · cases h
        · rename_i v heq
          injection h with h1
          injection h1 with h2 h3
          subst h3
          exact Nat.le_succ _
        · rename_i fields heq
          split at h
          · cases h
          · rename_i st₂ heq2
            injection h with h1
            injection h1 with h2 h3
            subst h3
            exact le_trans (Nat.le_succ st.next)
              (postFieldsGo_rel (fun s s' => s.next ≤ s'.next) htrans hrefl
                nextLe_mapSetOut _ ihc _ _ _ _ heq2)
        · rename_i items heq
          split at h
          · cases h
          · rename_i st₂ heq2
            injection h with h1
            injection h1 with h2 h3
            subst h3
            exact le_trans (Nat.le_succ st.next)
              (postItemsGo_rel (fun s s' => s.next ≤ s'.next) htrans hrefl
                nextLe_listExtendOut _ ihc _ _ _ _ heq2)
        · rename_i items heq
          split at h
          · cases h
          · rename_i ocs st₁ heq2
            split at h
            · cases h
            · rename_i st₃ heq3
              injection h with h1
              injection h1 with h2 h3
              subst h3
              refine le_trans (convItemsGo_rel (fun s s' => s.next ≤ s'.next)
                htrans hrefl _ ihc items st ocs st₁ heq2) ?_
              exact le_trans (Nat.le_succ st₁.next)
                (postPairsGo_rel (fun s s' => s.next ≤ s'.next) htrans hrefl
                  _ ihp _ _ _ heq3)
    | post po ia =>
      simp only [mgoStep] at h
      split at h
      · cases h
      · rename_i v heq
        injection h with h1
        injection h1 with h2 h3
        subst h3
        exact hrefl st
      · rename_i fields heq
        split at h
        · cases h
        · rename_i st₁ heq2
          injection h with h1
          injection h1 with h2 h3
          subst h3
          exact postFieldsGo_rel (fun s s' => s.next ≤ s'.next) htrans hrefl
            nextLe_mapSetOut _ ihc _ _ _ _ heq2
      · rename_i items heq
        split at h
        · cases h
        · rename_i st₁ heq2
          injection h with h1
          injection h1 with h2 h3
          subst h3
          exact postItemsGo_rel (fun s s' => s.next ≤ s'.next) htrans hrefl
            nextLe_listExtendOut _ ihc _ _ _ _ heq2
      · rename_i items heq
        split at h
        · rename_i ocs heq2
          split at h
          · cases h
          · rename_i st₁ heq3
            injection h with h1
            injection h1 with h2 h3
            subst h3
            exact postPairsGo_rel (fun s s' => s.next ≤ s'.next) htrans hrefl
              _ ihp _ _ _ heq3
        · injection h with h1
          injection h1 with h2 h3
          subst h3
          exact hrefl st

theorem mgo_conv_registers (heap : List (Nat × INode)) (b : Bool)
    (rk : Nat → Nat) (hsafe : RankSafe heap rk) :
    ∀ (f : Nat) (a : Nat) (st : MState) (o : Nat) (st' : MState),
      mgo heap b f (MTask.conv a) st = some (o, st') →
      alGet st'.seen a = some o := by
  intro f
  cases f with
  | zero => intro a st o st' h; cases h
  | succ f =>
    intro a st o st' h
    have ihc : ∀ c s oc s', (fun c s => mgo heap b f (MTask.conv c) s) c s
        = some (oc, s') → SeenLe s s' :=
      fun c s oc s' hh => mgo_seenLe heap b rk hsafe f (MTask.conv c) s oc s' hh
    have ihp : ∀ po ia s r s', (fun po ia s => mgo heap b f (MTask.post po ia) s)
        po ia s = some (r, s') → SeenLe s s' :=
      fun po ia s r s' hh => mgo_seenLe heap b rk hsafe f (MTask.post po ia) s r s' hh
    rw [mgo_succ] at h
    simp only [mgoStep] at h
    split at h
    · rename_i o₀ hseen
      injection h with h1
      injection h1 with h2 h3
      subst h3
      rw [hseen, h2]
    · rename_i hseen
      split at h
      · cases h
      · rename_i v heq
        injection h with h1
        injection h1 with h2 h3
        subst h3
        subst h2
        exact alGet_register_self st.seen a st.next
      · rename_i fields heq
        split at h
        · cases h
        · rename_i st₂ heq2
          injection h with h1
          injection h1 with h2 h3
          subst h3
          subst h2
          refine postFieldsGo_rel SeenLe seenLe_trans seenLe_refl
            seenLe_mapSetOut _ ihc _ _ _ _ heq2 a st.next ?_
          exact alGet_register_self st.seen a st.next
      · rename_i items heq
        split at h
        · cases h
        · rename_i st₂ heq2
          injection h with h1
          injection h1 with h2 h3
          subst h3
          subst h2
          refine postItemsGo_rel SeenLe seenLe_trans seenLe_refl
            seenLe_listExtendOut _ ihc _ _ _ _ heq2 a st.next ?_
          exact alGet_register_self st.seen a st.next
      · rename_i items heq
        split at h
        · cases h
        · rename_i ocs st₁ heq2
          split at h
          · cases h
          · rename_i st₃ heq3
            injection h with h1
            injection h1 with h2 h3
            subst h3
            subst h2
            refine postPairsGo_rel SeenLe seenLe_trans seenLe_refl _ ihp
              _ _ _ heq3 a st₁.next ?_
            exact alGet_register_self st₁.seen a st₁.next

/-!
Structural transform, part 6: the state invariants of a run and the
protected self-reference entry.
-/

theorem alGet_append_single_cases {κ α : Type} [DecidableEq κ]
    {l : List (κ × α)} {key p : κ} {v w : α}
    (h : alGet (l ++ [(key, v)]) p = some w) :
    alGet l p = some w ∨ (p = key ∧ w = v) := by
  induction l with
  | nil =>
    simp only [List.nil_append, alGet_cons_step] at h
    by_cases hk : key = p
    · rw [if_pos hk] at h
      injection h with h1
      exact Or.inr ⟨hk.symm, h1.symm⟩
    · rw [if_neg hk] at h
      cases h
  | cons q rest ih =>
    obtain ⟨k₀, v₀⟩ := q
    rw [List.cons_append, alGet_cons_step] at h
    by_cases hk : k₀ = p
    · rw [if_pos hk] at h
      injection h with h1
      exact Or.inl (by rw [alGet_cons_step, if_pos hk, h1])
    · rw [if_neg hk] at h
      rcases ih h with h1 | h2
      · exact Or.inl (by rw [alGet_cons_step, if_neg hk]; exact h1)
      · exact Or.inr h2

theorem alGet_alSet_cases {κ α : Type} [DecidableEq κ]
    {l : List (κ × α)} {key p : κ} {v w : α}
    (h : alGet (alSet l key v) p = some w) :
    (p = key ∧ w = v) ∨ (p ≠ key ∧ alGet l p = some w) := by
  by_cases hk : p = key
  · subst hk
    rw [alGet_alSet_self] at h
    injection h with h1
    exact Or.inl ⟨rfl, h1.symm⟩
  · rw [alGet_alSet_ne l v hk] at h
    exact Or.inr ⟨hk, h⟩

theorem assoc_nodup_unique {α : Type} {l : List (String × α)} {k : String}
    {v : α} (hnd : (l.map Prod.fst).Nodup) (hget : alGet l k = some v) :
    ∀ c, (k, c) ∈ l → c = v := by
  induction l with
  | nil => intro c hc; simp at hc
  | cons q rest ih =>
    obtain ⟨k₀, v₀⟩ := q
    intro c hc
    rw [alGet_cons_step] at hget
    have hnd' : (rest.map Prod.fst).Nodup := (List.nodup_cons.mp hnd).2
    have hk₀ : k₀ ∉ rest.map Prod.fst := (List.nodup_cons.mp hnd).1
    rcases List.mem_cons.mp hc with he | hm
    · have hk : k₀ = k := by
        have := congrArg Prod.fst he
        simpa using this.symm
      rw [if_pos hk] at hget
      injection hget with h1
      have hco : c = v₀ := by
        have := congrArg Prod.snd he
        simpa using this
      rw [hco, h1]
    · by_cases hk : k₀ = k
      · subst hk
        exact absurd (List.mem_map_of_mem Prod.fst hm) (by simpa using hk₀)
      · rw [if_neg hk] at hget
        exact ih hnd' hget c hm

theorem forall₂_zip_rel {α β : Type} {R : α → β → Prop}
    {l₁ : List α} {l₂ : List β} (h : List.Forall₂ R l₁ l₂) :
    ∀ x y, (x, y) ∈ l₁.zip l₂ → R x y := by
  induction h with
  | nil => intro x y hm; simp at hm
  | cons hr _ ih =>
    intro x y hm
    rcases List.mem_cons.mp hm with he | hm'
    · injection he with h1 h2
      subst h1
      subst h2
      exact hr
    · exact ih x y hm'

theorem forall₂_seen_mono {s s' : MState} (hle : SeenLe s s')
    {ocs : List Nat} {is' : List Nat}
    (h : List.Forall₂ (fun oc ic => alGet s.seen ic = some oc) ocs is') :
    List.Forall₂ (fun oc ic => alGet s'.seen ic = some oc) ocs is' :=
  List.Forall₂.imp (fun {oc ic} hr => hle ic oc hr) h

theorem register_good (heap : List (Nat × INode)) (st : MState) (x : Nat)
    (node : ONode) (hgood : GoodState heap st)
    (hx : alGet st.seen x = none)
    (htup : ∀ ocs, node = ONode.tupN ocs →
      ∃ is', alGet heap x = some (INode.tupN is') ∧
        List.Forall₂ (fun oc ic => alGet st.seen ic = some oc) ocs is') :
    GoodState heap
      { seen := (x, st.next) :: st.seen
        out := st.out ++ [(st.next, node)]
        next := st.next + 1 } := by
  obtain ⟨hlt, hinj, hout, htupinv⟩ := hgood
  have hle : SeenLe st
      { seen := (x, st.next) :: st.seen
        out := st.out ++ [(st.next, node)]
        next := st.next + 1 } :=
    seenLe_register st.next _ _ hx
  refine ⟨?_, ?_, ?_, ?_⟩
  · intro y p hy
    have hy' : alGet ((x, st.next) :: st.seen) y = some p := hy
    rw [alGet_cons_step] at hy'
    show p < st.next + 1
    by_cases hxy : x = y
    · rw [if_pos hxy] at hy'
      injection hy' with h1
      omega
    · rw [if_neg hxy] at hy'
      have := hlt y p hy'
      omega
  · intro y z p hy hz
    have hy' : alGet ((x, st.next) :: st.seen) y = some p := hy
    have hz' : alGet ((x, st.next) :: st.seen) z = some p := hz
    rw [alGet_cons_step] at hy' hz'
    by_cases hxy : x = y
    · rw [if_pos hxy] at hy'
      injection hy' with h1
      by_cases hxz : x = z
      · rw [← hxy, hxz]
      · rw [if_neg hxz] at hz'
        have := hlt z p hz'
        omega
    · rw [if_neg hxy] at hy'
      by_cases hxz : x = z
      · rw [if_pos hxz] at hz'
        injection hz' with h1
        have := hlt y p hy'
        omega
      · rw [if_neg hxz] at hz'
        exact hinj y z p hy' hz'
  · intro p n hp
    have hp' : alGet (st.out ++ [(st.next, node)]) p = some n := hp
    show p < st.next + 1
    rcases alGet_append_single_cases hp' with h1 | ⟨h2, _⟩
    · have := hout p n h1
      omega
    · omega
  · intro p ocs hp
    have hp' : alGet (st.out ++ [(st.next, node)]) p = some (ONode.tupN ocs) := hp
    rcases alGet_append_single_cases hp' with h1 | ⟨h2, h3⟩
    · obtain ⟨t, is', ht, hheap, hf⟩ := htupinv p ocs h1
      exact ⟨t, is', hle t p ht, hheap, forall₂_seen_mono hle hf⟩
    · obtain ⟨is', hheap, hf⟩ := htup ocs h3.symm
      refine ⟨x, is', ?_, hheap, forall₂_seen_mono hle hf⟩
      subst h2
      exact alGet_register_self st.seen x st.next

theorem register_protect (_heap : List (Nat × INode)) (st : MState)
    (a : Nat) (k : String) (o : Nat) (x : Nat) (node : ONode)
    (hx : alGet st.seen x = none)
    (hp : ProtectO a k o st) :
    ProtectO a k o
      { seen := (x, st.next) :: st.seen
        out := st.out ++ [(st.next, node)]
        next := st.next + 1 } ∧
    (KIsO k o st → KIsO k o
      { seen := (x, st.next) :: st.seen
        out := st.out ++ [(st.next, node)]
        next := st.next + 1 }) := by
  obtain ⟨hpa, bb, flds, hpo, hpk⟩ := hp
  have hle : SeenLe st
      { seen := (x, st.next) :: st.seen
        out := st.out ++ [(st.next, node)]
        next := st.next + 1 } :=
    seenLe_register st.next _ _ hx
  constructor
  · refine ⟨hle a o hpa, bb, flds, ?_, hpk⟩
    exact alGet_append_left _ hpo
  · rintro ⟨bb', flds', ho', hk'⟩
    exact ⟨bb', flds', alGet_append_left _ ho', hk'⟩

theorem mapSetOut_bundle (heap : List (Nat × INode)) (s : MState)
    (a : Nat) (k : String) (o : Nat) (po' : Nat) (k' : String) (oc : Nat)
    (hgood : GoodState heap s) (hp : ProtectO a k o s)
    (hcase : po' = o → k' = k → oc = o) :
    GoodState heap (mapSetOut s po' k' oc) ∧
    ProtectO a k o (mapSetOut s po' k' oc) ∧
    (KIsO k o s → KIsO k o (mapSetOut s po' k' oc)) := by
  obtain ⟨hlt, hinj, hout, htupinv⟩ := hgood
  obtain ⟨hpa, bb, flds, hpo, hpk⟩ := hp
  unfold mapSetOut
  cases hg : alGet s.out po' with
  | none => exact ⟨⟨hlt, hinj, hout, htupinv⟩, ⟨hpa, bb, flds, hpo, hpk⟩, id⟩
  | some n =>
    cases n with
    | scalar v => exact ⟨⟨hlt, hinj, hout, htupinv⟩, ⟨hpa, bb, flds, hpo, hpk⟩, id⟩
    | listN its => exact ⟨⟨hlt, hinj, hout, htupinv⟩, ⟨hpa, bb, flds, hpo, hpk⟩, id⟩
    | tupN its => exact ⟨⟨hlt, hinj, hout, htupinv⟩, ⟨hpa, bb, flds, hpo, hpk⟩, id⟩
    | mapN b' flds' =>
      refine ⟨⟨hlt, hinj, ?_, ?_⟩, ?_, ?_⟩
      · intro p n hpn
        have hpn' : alGet (alSet s.out po' (ONode.mapN b' (alSet flds' k' oc))) p
            = some n := hpn
        rcases alGet_alSet_cases hpn' with ⟨h1, _⟩ | ⟨h1, h2⟩
        · subst h1
          exact hout p _ hg
        · exact hout p n h2
      · intro p ocs hpn
        have hpn' : alGet (alSet s.out po' (ONode.mapN b' (alSet flds' k' oc))) p
            = some (ONode.tupN ocs) := hpn
        rcases alGet_alSet_cases hpn' with ⟨h1, h2⟩ | ⟨h1, h2⟩
        · cases h2
        · exact htupinv p ocs h2
      · by_cases hpo' : po' = o
        · subst hpo'
          have hsame : ONode.mapN b' flds' = ONode.mapN bb flds := by
            rw [hg] at hpo
            injection hpo with h1
          injection hsame with h1 h2
          subst h1
          subst h2
          refine ⟨hpa, b', alSet flds' k' oc, ?_, ?_⟩
          · show alGet (alSet s.out po' (ONode.mapN b' (alSet flds' k' oc))) po'
                = some (ONode.mapN b' (alSet flds' k' oc))
            exact alGet_alSet_self _ _ _
          · intro v' hv'
            rcases alGet_alSet_cases hv' with ⟨h1, h2⟩ | ⟨h1, h2⟩
            · rw [h2]
              exact hcase rfl h1.symm
            · exact hpk v' h2
        · refine ⟨hpa, bb, flds, ?_, hpk⟩
          show alGet (alSet s.out po' (ONode.mapN b' (alSet flds' k' oc))) o
              = some (ONode.mapN bb flds)
          rw [alGet_alSet_ne _ _ (fun he => hpo' he.symm)]
          exact hpo
      · rintro ⟨bb2, flds2, ho2, hk2⟩
        by_cases hpo' : po' = o
        · subst hpo'
          have hsame : ONode.mapN b' flds' = ONode.mapN bb2 flds2 := by
            rw [hg] at ho2
            injection ho2 with h1
          injection hsame with h1 h2
          subst h1
          subst h2
          refine ⟨b', alSet flds' k' oc, ?_, ?_⟩
          · show alGet (alSet s.out po' (ONode.mapN b' (alSet flds' k' oc))) po'
                = some (ONode.mapN b' (alSet flds' k' oc))
            exact alGet_alSet_self _ _ _
          · by_cases hkk : k' = k
            · subst hkk
              rw [alGet_alSet_self]
              rw [hcase rfl rfl]
            · rw [alGet_alSet_ne _ _ (fun he => hkk he.symm)]
              exact hk2
        · refine ⟨bb2, flds2, ?_, hk2⟩
          show alGet (alSet s.out po' (ONode.mapN b' (alSet flds' k' oc))) o
              = some (ONode.mapN bb2 flds2)
          rw [alGet_alSet_ne _ _ (fun he => hpo' he.symm)]
          exact ho2

theorem listExtendOut_bundle (heap : List (Nat × INode)) (s : MState)
    (a : Nat) (k : String) (o : Nat) (po' oc : Nat)
    (hgood : GoodState heap s) (hp : ProtectO a k o s) :
    GoodState heap (listExtendOut s po' oc) ∧
    ProtectO a k o (listExtendOut s po' oc) ∧
    (KIsO k o s → KIsO k o (listExtendOut s po' oc)) := by
  obtain ⟨hlt, hinj, hout, htupinv⟩ := hgood
  obtain ⟨hpa, bb, flds, hpo, hpk⟩ := hp
  unfold listExtendOut
  cases hg : alGet s.out po' with
  | none => exact ⟨⟨hlt, hinj, hout, htupinv⟩, ⟨hpa, bb, flds, hpo, hpk⟩, id⟩
  | some n =>
    cases n with
    | scalar v => exact ⟨⟨hlt, hinj, hout, htupinv⟩, ⟨hpa, bb, flds, hpo, hpk⟩, id⟩
    | mapN b' flds' =>
      exact ⟨⟨hlt, hinj, hout, htupinv⟩, ⟨hpa, bb, flds, hpo, hpk⟩, id⟩
    | tupN its => exact ⟨⟨hlt, hinj, hout, htupinv⟩, ⟨hpa, bb, flds, hpo, hpk⟩, id⟩
    | listN its =>
      have hne : po' ≠ o := by
        intro he
        subst he
        rw [hg] at hpo
        cases hpo
      refine ⟨⟨hlt, hinj, ?_, ?_⟩, ?_, ?_⟩
      · intro p n hpn
        have hpn' : alGet (alSet s.out po' (ONode.listN (its ++ [oc]))) p
            = some n := hpn
        rcases alGet_alSet_cases hpn' with ⟨h1, _⟩ | ⟨h1, h2⟩
        · subst h1
          exact hout p _ hg
        · exact hout p n h2
      · intro p ocs hpn
        have hpn' : alGet (alSet s.out po' (ONode.listN (its ++ [oc]))) p
            = some (ONode.tupN ocs) := hpn
        rcases alGet_alSet_cases hpn' with ⟨h1, h2⟩ | ⟨h1, h2⟩
        · cases h2
        · exact htupinv p ocs h2
      · refine ⟨hpa, bb, flds, ?_, hpk⟩
        show alGet (alSet s.out po' (ONode.listN (its ++ [oc]))) o
            = some (ONode.mapN bb flds)
        rw [alGet_alSet_ne _ _ (fun he => hne he.symm)]
        exact hpo
      · rintro ⟨bb2, flds2, ho2, hk2⟩
        refine ⟨bb2, flds2, ?_, hk2⟩
        show alGet (alSet s.out po' (ONode.listN (its ++ [oc]))) o
            = some (ONode.mapN bb2 flds2)
        rw [alGet_alSet_ne _ _ (fun he => hne he.symm)]
        exact ho2

theorem convItemsGo_forall₂ (heap : List (Nat × INode)) (b : Bool)
    (rk : Nat → Nat) (hsafe : RankSafe heap rk) (f : Nat) :
    ∀ (items : List Nat) (st : MState) (ocs : List Nat) (st' : MState),
      convItemsGo (fun c s => mgo heap b f (MTask.conv c) s) items st
        = some (ocs, st') →
      List.Forall₂ (fun oc ic => alGet st'.seen ic = some oc) ocs items := by
  intro items
  induction items with
  | nil =>
    intro st ocs st' h
    injection h with h1
    injection h1 with h2 h3
    subst h2
    exact List.Forall₂.nil
  | cons c rest ih =>
    intro st ocs st' h
    simp only [convItemsGo] at h
    split at h
    · cases h
    · rename_i oc st₁ heq
      split at h
      · cases h
      · rename_i ocs₂ st₂ heq2
        injection h with h1
        injection h1 with h2 h3
        subst h2
        subst h3
        have hc : alGet st₁.seen c = some oc :=
          mgo_conv_registers heap b rk hsafe f c st oc st₁ heq
        have hle : SeenLe st₁ st₂ :=
          convItemsGo_rel SeenLe seenLe_trans seenLe_refl _
            (fun c' s oc' s' hh =>
              mgo_seenLe heap b rk hsafe f (MTask.conv c') s oc' s' hh)
            rest st₁ ocs₂ st₂ heq2
        exact List.Forall₂.cons (hle c oc hc) (ih _ _ _ heq2)

theorem postFieldsGo_bundle (heap : List (Nat × INode))
    (a : Nat) (k : String) (o : Nat)
    (g : Nat → MState → Option (Nat × MState)) (o' : Nat) :
    ∀ (fields' : List (String × Nat)),
      (∀ c s oc s', (∃ k₀, (k₀, c) ∈ fields') → GoodState heap s →
        ProtectO a k o s → g c s = some (oc, s') →
        GoodState heap s' ∧ ProtectO a k o s' ∧ (KIsO k o s → KIsO k o s')) →
      (∀ k' c s oc s', (k', c) ∈ fields' → GoodState heap s →
        ProtectO a k o s → g c s = some (oc, s') → o' = o → k' = k → oc = o) →
      ∀ st st', GoodState heap st → ProtectO a k o st →
        postFieldsGo g o' fields' st = some st' →
        GoodState heap st' ∧ ProtectO a k o st' ∧
          (KIsO k o st → KIsO k o st') := by
  intro fields'
  induction fields' with
  | nil =>
    intro _ _ st st' hgood hprot h
    injection h with h1
    subst h1
    exact ⟨hgood, hprot, id⟩
  | cons kc rest ih =>
    intro hg hwr st st' hgood hprot h
    obtain ⟨k₁, c⟩ := kc
    simp only [postFieldsGo] at h
    split at h
    · cases h
    · rename_i oc st₁ heq
      obtain ⟨hgood₁, hprot₁, hk₁⟩ :=
        hg c st oc st₁ ⟨k₁, List.mem_cons_self _ _⟩ hgood hprot heq
      obtain ⟨hgood₂, hprot₂, hk₂⟩ :=
        mapSetOut_bundle heap st₁ a k o o' k₁ oc hgood₁ hprot₁
          (fun hpo hkk =>
            hwr k₁ c st oc st₁ (List.mem_cons_self _ _) hgood hprot heq hpo hkk)
      obtain ⟨hgood₃, hprot₃, hk₃⟩ :=
        ih (fun c' s oc' s' hm hgs hps hh =>
              hg c' s oc' s' (hm.imp fun k₀ hk0 => List.mem_cons_of_mem _ hk0)
                hgs hps hh)
          (fun k' c' s oc' s' hm hgs hps hh hpo hkk =>
            hwr k' c' s oc' s' (List.mem_cons_of_mem _ hm) hgs hps hh hpo hkk)
          _ _ hgood₂ hprot₂ h
      exact ⟨hgood₃, hprot₃, fun hki => hk₃ (hk₂ (hk₁ hki))⟩

theorem postItemsGo_bundle (heap : List (Nat × INode))
    (a : Nat) (k : String) (o : Nat)
    (g : Nat → MState → Option (Nat × MState)) (o' : Nat) :
    ∀ (items : List Nat),
      (∀ c s oc s', c ∈ items → GoodState heap s →
        ProtectO a k o s → g c s = some (oc, s') →
        GoodState heap s' ∧ ProtectO a k o s' ∧ (KIsO k o s → KIsO k o s')) →
      ∀ st st', GoodState heap st → ProtectO a k o st →
        postItemsGo g o' items st = some st' →
        GoodState heap st' ∧ ProtectO a k o st' ∧
          (KIsO k o st → KIsO k o st') := by
  intro items
  induction items with
  | nil =>
    intro _ st st' hgood hprot h
    injection h with h1
    subst h1
    exact ⟨hgood, hprot, id⟩
  | cons c rest ih =>
    intro hg st st' hgood hprot h
    simp only [postItemsGo] at h
    split at h
    · cases h
    · rename_i oc st₁ heq
      obtain ⟨hgood₁, hprot₁, hk₁⟩ :=
        hg c st oc st₁ (List.mem_cons_self _ _) hgood hprot heq
      obtain ⟨hgood₂, hprot₂, hk₂⟩ :=
        listExtendOut_bundle heap st₁ a k o o' oc hgood₁ hprot₁
      obtain ⟨hgood₃, hprot₃, hk₃⟩ :=
        ih (fun c' s oc' s' hm hgs hps hh =>
              hg c' s oc' s' (List.mem_cons_of_mem _ hm) hgs hps hh)
          _ _ hgood₂ hprot₂ h
      exact ⟨hgood₃, hprot₃, fun hki => hk₃ (hk₂ (hk₁ hki))⟩

theorem convItemsGo_bundle (heap : List (Nat × INode))
    (a : Nat) (k : String) (o : Nat)
    (g : Nat → MState → Option (Nat × MState)) :
    ∀ (items : List Nat),
      (∀ c s oc s', c ∈ items → GoodState heap s →
        ProtectO a k o s → g c s = some (oc, s') →
        GoodState heap s' ∧ ProtectO a k o s' ∧ (KIsO k o s → KIsO k o s')) →
      ∀ st ocs st', GoodState heap st → ProtectO a k o st →
        convItemsGo g items st = some (ocs, st') →
        GoodState heap st' ∧ ProtectO a k o st' ∧
          (KIsO k o st → KIsO k o st') := by
  intro items
  induction items with
  | nil =>
    intro _ st ocs st' hgood hprot h
    injection h with h1
    injection h1 with h2 h3
    subst h3
    exact ⟨hgood, hprot, id⟩
  | cons c rest ih =>
    intro hg st ocs st' hgood hprot h
    simp only [convItemsGo] at h
    split at h
    · cases h
    · rename_i oc st₁ heq
      split at h
      · cases h
      · rename_i ocs₂ st₂ heq2
        injection h with h1
        injection h1 with h2 h3
        subst h3
        obtain ⟨hgood₁, hprot₁, hk₁⟩ :=
          hg c st oc st₁ (List.mem_cons_self _ _) hgood hprot heq
        obtain ⟨hgood₂, hprot₂, hk₂⟩ :=
          ih (fun c' s oc' s' hm hgs hps hh =>
                hg c' s oc' s' (List.mem_cons_of_mem _ hm) hgs hps hh)
            _ _ _ hgood₁ hprot₁ heq2
        exact ⟨hgood₂, hprot₂, fun hki => hk₂ (hk₁ hki)⟩

theorem postPairsGo_bundle (heap : List (Nat × INode))
    (a : Nat) (k : String) (o : Nat)
    (p : Nat → Nat → MState → Option (Nat × MState)) :
    ∀ (pairs : List (Nat × Nat)),
      (∀ po' ia' s r s', (po', ia') ∈ pairs → GoodState heap s →
        ProtectO a k o s → alGet s.seen ia' = some po' →
        p po' ia' s = some (r, s') →
        (GoodState heap s' ∧ ProtectO a k o s' ∧ (KIsO k o s → KIsO k o s'))
          ∧ SeenLe s s') →
      ∀ st st', GoodState heap st → ProtectO a k o st →
        (∀ po' ia', (po', ia') ∈ pairs → alGet st.seen ia' = some po') →
        postPairsGo p pairs st = some st' →
        GoodState heap st' ∧ ProtectO a k o st' ∧
          (KIsO k o st → KIsO k o st') := by
  intro pairs
  induction pairs with
  | nil =>
    intro _ st st' hgood hprot _ h
    injection h with h1
    subst h1
    exact ⟨hgood, hprot, id⟩
  | cons pr rest ih =>
    intro hp st st' hgood hprot hts h
    obtain ⟨po, ia⟩ := pr
    simp only [postPairsGo] at h
    split at h
    · cases h
    · rename_i r st₁ heq
      obtain ⟨⟨hgood₁, hprot₁, hk₁⟩, hle₁⟩ :=
        hp po ia st r st₁ (List.mem_cons_self _ _) hgood hprot
          (hts po ia (List.mem_cons_self _ _)) heq
      obtain ⟨hgood₂, hprot₂, hk₂⟩ :=
        ih (fun po' ia' s r' s' hm hgs hps hts' hh =>
              hp po' ia' s r' s' (List.mem_cons_of_mem _ hm) hgs hps hts' hh)
          _ _ hgood₁ hprot₁
          (fun po' ia' hm =>
            hle₁ ia' po' (hts po' ia' (List.mem_cons_of_mem _ hm)))
          h
      exact ⟨hgood₂, hprot₂, fun hki => hk₂ (hk₁ hki)⟩

theorem mgo_conv_cached (heap : List (Nat × INode)) (b : Bool) (f : Nat)
    (x : Nat) (s : MState) (o oc : Nat) (s' : MState)
    (hs : alGet s.seen x = some o)
    (h : mgo heap b f (MTask.conv x) s = some (oc, s')) :
    oc = o ∧ s' = s := by
  cases f with
  | zero => rw [mgo_zero] at h; cases h
  | succ f₂ =>
    rw [mgo_conv_hit heap b f₂ x s o hs] at h
    injection h with h1
    injection h1 with h2 h3
    exact ⟨h2.symm, h3.symm⟩

theorem postFieldsGo_append (g : Nat → MState → Option (Nat × MState))
    (o : Nat) :
    ∀ (l₁ l₂ : List (String × Nat)) (st : MState),
      postFieldsGo g o (l₁ ++ l₂) st =
        match postFieldsGo g o l₁ st with
        | none => none
        | some s => postFieldsGo g o l₂ s := by
  intro l₁
  induction l₁ with
  | nil => intro l₂ st; rfl
  | cons kc rest ih =>
    intro l₂ st
    obtain ⟨k₁, c⟩ := kc
    have hstep : postFieldsGo g o ((k₁, c) :: rest) st
        = match g c st with
          | none => none
          | some (oc, st₁) => postFieldsGo g o rest (mapSetOut st₁ o k₁ oc) := rfl
    show (match g c st with
        | none => none
        | some (oc, st₁) => postFieldsGo g o (rest ++ l₂) (mapSetOut st₁ o k₁ oc))
      = _
    rw [hstep]
    cases g c st with
    | none => rfl
    | some p =>
      obtain ⟨oc, st₁⟩ := p
      exact ih l₂ (mapSetOut st₁ o k₁ oc)

theorem mgo_bundle (heap : List (Nat × INode)) (b : Bool) (rk : Nat → Nat)
    (hsafe : RankSafe heap rk)
    (a : Nat) (k : String) (o : Nat) (fields : List (String × Nat))
    (hnode : alGet heap a = some (INode.mapN fields))
    (hfk : alGet fields k = some a)
    (hnd : (fields.map Prod.fst).Nodup) :
    ∀ (f : Nat) (t : MTask) (st : MState) (r : Nat) (st' : MState),
      GoodState heap st → ProtectO a k o st → TaskSeenOK st t →
      mgo heap b f t st = some (r, st') →
      GoodState heap st' ∧ ProtectO a k o st' ∧
        (KIsO k o st → KIsO k o st') := by
  intro f
  induction f with
  | zero => intro t st r st' _ _ _ h; cases h
  | succ f ih =>
    intro t st r st' hgood hprot hts h
    rw [mgo_succ] at h
    cases t with
    | conv x =>
      simp only [mgoStep] at h
      split at h
      · injection h with h1
        injection h1 with h2 h3
        subst h3
        exact ⟨hgood, hprot, id⟩
      · rename_i hseen
        split at h
        · cases h
        · rename_i v heq
          injection h with h1
          injection h1 with h2 h3
          subst h3
          exact ⟨register_good heap st x (ONode.scalar v) hgood hseen
              (fun ocs0 hh => by cases hh),
            register_protect heap st a k o x (ONode.scalar v) hseen hprot⟩
        · rename_i fields_x heq
          split at h
          · cases h
          · rename_i st₂ heq2
            injection h with h1
            injection h1 with h2 h3
            subst h3
            have honext : o < st.next := hgood.1 a o hprot.1
            have hgood₁ := register_good heap st x (ONode.mapN b []) hgood hseen
              (fun ocs0 hh => by cases hh)
            have hpk₁ := register_protect heap st a k o x (ONode.mapN b [])
              hseen hprot
            obtain ⟨hgood₂, hprot₂, hk₂⟩ :=
              postFieldsGo_bundle heap a k o _ st.next fields_x
                (fun c s oc s' _ hgs hps hh =>
                  ih (MTask.conv c) s oc s' hgs hps (by exact True.intro) hh)
                (fun k' c s oc s' _ _ _ _ hpo _ => absurd hpo (by omega))
                _ _ hgood₁ hpk₁.1 heq2
            exact ⟨hgood₂, hprot₂, fun hki => hk₂ (hpk₁.2 hki)⟩
        · rename_i items_x heq
          split at h
          · cases h
          · rename_i st₂ heq2
            injection h with h1
            injection h1 with h2 h3
            subst h3
            have hgood₁ := register_good heap st x (ONode.listN []) hgood hseen
              (fun ocs0 hh => by cases hh)
            have hpk₁ := register_protect heap st a k o x (ONode.listN [])
              hseen hprot
            obtain ⟨hgood₂, hprot₂, hk₂⟩ :=
              postItemsGo_bundle heap a k o _ st.next items_x
                (fun c s oc s' _ hgs hps hh =>
                  ih (MTask.conv c) s oc s' hgs hps (by exact True.intro) hh)
                _ _ hgood₁ hpk₁.1 heq2
            exact ⟨hgood₂, hprot₂, fun hki => hk₂ (hpk₁.2 hki)⟩
        · rename_i items_x heq
          split at h
          · cases h
          · rename_i ocs st₁ heq2
            split at h
            · cases h
            · rename_i st₃ heq3
              injection h with h1
              injection h1 with h2 h3
              subst h3
              obtain ⟨hgood₁, hprot₁, hk₁⟩ :=
                convItemsGo_bundle heap a k o _ items_x
                  (fun c s oc s' _ hgs hps hh =>
                    ih (MTask.conv c) s oc s' hgs hps (by exact True.intro) hh)
                  _ _ _ hgood hprot heq2
              have hnos : alGet st₁.seen x = none := by
                cases hmid : alGet st₁.seen x with
                | none => rfl
                | some p =>
                  obtain ⟨c, hm, hr⟩ := convItemsGo_reg rk _
                    (fun c s oc s' hh =>
                      mgo_regBound heap b rk hsafe f (MTask.conv c) s oc s' hh)
                    items_x st ocs st₁ heq2 x hseen (by rw [hmid]; rfl)
                  have hlt : rk c < rk x := by
                    have := hsafe (x, INode.tupN items_x) (alGet_mem heq) c hm
                    simpa using this
                  omega
              have hf₂ := convItemsGo_forall₂ heap b rk hsafe f items_x
                st ocs st₁ heq2
              have hgood₂ := register_good heap st₁ x (ONode.tupN ocs) hgood₁
                hnos (fun ocs0 hh => by
                  injection hh with h4
                  subst h4
                  exact ⟨items_x, heq, hf₂⟩)
              have hpk₂ := register_protect heap st₁ a k o x (ONode.tupN ocs)
                hnos hprot₁
              obtain ⟨hgood₃, hprot₃, hk₃⟩ :=
                postPairsGo_bundle heap a k o _ (ocs.zip items_x)
                  (fun po' ia' s r' s' _ hgs hps hts' hh =>
                    ⟨ih (MTask.post po' ia') s r' s' hgs hps hts' hh,
                      mgo_seenLe heap b rk hsafe f (MTask.post po' ia') s r' s' hh⟩)
                  _ _ hgood₂ hpk₂.1
                  (fun po' ia' hm =>
                    forall₂_zip_rel
                      (forall₂_seen_mono (seenLe_register st₁.next _ _ hnos) hf₂)
                      po' ia' hm)
                  heq3
              exact ⟨hgood₃, hprot₃, fun hki => hk₃ (hpk₂.2 (hk₁ hki))⟩
    | post po ia =>
      have htsa : alGet st.seen ia = some po := hts
      simp only [mgoStep] at h
      split at h
      · cases h
      · rename_i v heq
        injection h with h1
        injection h1 with h2 h3
        subst h3
        exact ⟨hgood, hprot, id⟩
      · rename_i fields_ia heq
        split at h
        · cases h
        · rename_i st₁ heq2
          injection h with h1
          injection h1 with h2 h3
          subst h3
          exact postFieldsGo_bundle heap a k o _ po fields_ia
            (fun c s oc s' _ hgs hps hh =>
              ih (MTask.conv c) s oc s' hgs hps (by exact True.intro) hh)
            (fun k' c s oc s' hm hgs hps hh hpo hkk => by
              have hio : alGet st.seen ia = some o := by
                rw [← hpo]; exact htsa
              have hia : ia = a := hgood.2.1 ia a o hio hprot.1
              have hfe : fields_ia = fields := by
                rw [hia, hnode] at heq
                injection heq with h4
                injection h4 with h5
                exact h5.symm
              have hca : c = a := by
                apply assoc_nodup_unique hnd hfk
                rw [← hkk, ← hfe]
                exact hm
              subst hca
              exact (mgo_conv_cached heap b f c s o oc s' hps.1 hh).1)
            _ _ hgood hprot heq2
      · rename_i items_ia heq
        split at h
        · cases h
        · rename_i st₁ heq2
          injection h with h1
          injection h1 with h2 h3
          subst h3
          exact postItemsGo_bundle heap a k o _ po items_ia
            (fun c s oc s' _ hgs hps hh =>
              ih (MTask.conv c) s oc s' hgs hps (by exact True.intro) hh)
            _ _ hgood hprot heq2
      · rename_i items_ia heq
        split at h
        · rename_i ocs hout
          split at h
          · cases h
          · rename_i st₁ heq3
            injection h with h1
            injection h1 with h2 h3
            subst h3
            obtain ⟨t, is', ht, hheap, hfor⟩ := hgood.2.2.2 po ocs hout
            have htia : t = ia := hgood.2.1 t ia po ht htsa
            have his : is' = items_ia := by
              rw [htia, heq] at hheap
              injection hheap with h4
              injection h4 with h5
              exact h5.symm
            exact postPairsGo_bundle heap a k o _ (ocs.zip items_ia)
              (fun po' ia' s r' s' _ hgs hps hts' hh =>
                ⟨ih (MTask.post po' ia') s r' s' hgs hps hts' hh,
                  mgo_seenLe heap b rk hsafe f (MTask.post po' ia') s r' s' hh⟩)
              _ _ hgood hprot
              (fun po' ia' hm => forall₂_zip_rel (his ▸ hfor) po' ia' hm)
              heq3
        · injection h with h1
          injection h1 with h2 h3
          subst h3
          exact ⟨hgood, hprot, id⟩

theorem mapSetOut_write (s : MState) (o : Nat) (k : String) (v : Nat)
    (bb : Bool) (flds : List (String × Nat))
    (h : alGet s.out o = some (ONode.mapN bb flds)) :
    (mapSetOut s o k v).out = alSet s.out o (ONode.mapN bb (alSet flds k v)) := by
  unfold mapSetOut
  rw [h]

theorem mgo_self_ref (heap : List (Nat × INode)) (b : Bool) (rk : Nat → Nat)
    (hsafe : RankSafe heap rk)
    (a : Nat) (k : String) (fields : List (String × Nat))
    (hnode : alGet heap a = some (INode.mapN fields))
    (hfk : alGet fields k = some a)
    (hnd : (fields.map Prod.fst).Nodup)
    (f : Nat) (o : Nat) (st' : MState)
    (h : mgo heap b f (MTask.conv a) mstate0 = some (o, st')) :
    ∃ bo flds, alGet st'.out o = some (ONode.mapN bo flds) ∧
      alGet flds k = some o := by
  cases f with
  | zero => rw [mgo_zero] at h; cases h
  | succ f =>
    rw [mgo_succ] at h
    simp only [mgoStep] at h
    split at h
    · rename_i o₀ hseen
      have hseen' : (none : Option Nat) = some o₀ := hseen
      cases hseen'
    · rename_i hseen
      split at h
      · cases h
      · rename_i v heq
        rw [hnode] at heq
        injection heq with h4
        injection h4
      · rename_i flds0 heq
        rw [hnode] at heq
        injection heq with h4
        injection h4 with h5
        subst h5
        split at h
        · cases h
        · rename_i st₂ heq2
          injection h with h1
          injection h1 with h2 h3
          subst h3
          subst h2
          have hg0 : GoodState heap mstate0 := by
            refine ⟨?_, ?_, ?_, ?_⟩
            · intro x p hx
              have hx' : (none : Option Nat) = some p := hx
              cases hx'
            · intro x y p hx _
              have hx' : (none : Option Nat) = some p := hx
              cases hx'
            · intro p n hp
              have hp' : (none : Option ONode) = some n := hp
              cases hp'
            · intro p ocs hp
              have hp' : (none : Option ONode) = some (ONode.tupN ocs) := hp
              cases hp'
          have hgood₁ := register_good heap mstate0 a (ONode.mapN b []) hg0 rfl
            (fun ocs0 hh => by cases hh)
          have hprot₁ : ProtectO a k mstate0.next
              { seen := (a, mstate0.next) :: mstate0.seen
                out := mstate0.out ++ [(mstate0.next, ONode.mapN b [])]
                next := mstate0.next + 1 } := by
            refine ⟨alGet_register_self mstate0.seen a mstate0.next, b, [], rfl, ?_⟩
            intro v hv
            have hv' : (none : Option Nat) = some v := hv
            cases hv'
          obtain ⟨pre, suf, hsplit, hpre⟩ := alGet_split hfk
          have hnd2 := hnd
          rw [hsplit, List.map_append, List.map_cons] at hnd2
          have hsuf : k ∉ alKeys suf :=
            (List.nodup_cons.mp (List.nodup_append.mp hnd2).2.1).1
          rw [hsplit, postFieldsGo_append] at heq2
          split at heq2
          · cases heq2
          · rename_i s₂ heqp
            simp only [postFieldsGo] at heq2
            split at heq2
            · cases heq2
            · rename_i oc s₃ heqa
              obtain ⟨hgood₂, hprot₂, _⟩ :=
                postFieldsGo_bundle heap a k mstate0.next _ mstate0.next pre
                  (fun c s oc' s' _ hgs hps hh =>
                    mgo_bundle heap b rk hsafe a k mstate0.next fields hnode hfk
                      hnd f (MTask.conv c) s oc' s' hgs hps (by exact True.intro) hh)
                  (fun k' c s oc' s' hm _ _ _ _ hkk =>
                    absurd (hkk ▸ List.mem_map_of_mem Prod.fst hm) hpre)
                  _ _ hgood₁ hprot₁ heqp
              obtain ⟨hoc, hs3⟩ := mgo_conv_cached heap b f a s₂ mstate0.next
                oc s₃ hprot₂.1 heqa
              subst hoc
              subst hs3
              obtain ⟨hpa₂, bb₂, flds₃, hpo₂, hpk₂⟩ := hprot₂
              have hw := mapSetOut_write s₃ mstate0.next k mstate0.next bb₂
                flds₃ hpo₂
              have hki : KIsO k mstate0.next
                  (mapSetOut s₃ mstate0.next k mstate0.next) := by
                refine ⟨bb₂, alSet flds₃ k mstate0.next, ?_,
                  alGet_alSet_self _ _ _⟩
                show alGet (mapSetOut s₃ mstate0.next k mstate0.next).out
                    mstate0.next = _
                rw [hw]
                exact alGet_alSet_self _ _ _
              obtain ⟨hgood₃, hprot₃, _⟩ :=
                mapSetOut_bundle heap s₃ a k mstate0.next mstate0.next k
                  mstate0.next hgood₂ ⟨hpa₂, bb₂, flds₃, hpo₂, hpk₂⟩
                  (fun _ _ => rfl)
              obtain ⟨_, _, hkpres⟩ :=
                postFieldsGo_bundle heap a k mstate0.next _ mstate0.next suf
                  (fun c s oc' s' _ hgs hps hh =>
                    mgo_bundle heap b rk hsafe a k mstate0.next fields hnode hfk
                      hnd f (MTask.conv c) s oc' s' hgs hps (by exact True.intro) hh)
                  (fun k' c s oc' s' hm _ _ _ _ hkk =>
                    absurd (hkk ▸ List.mem_map_of_mem Prod.fst hm) hsuf)
                  _ _ hgood₃ hprot₃ heq2
              exact hkpres hki
      · rename_i items0 heq
        rw [hnode] at heq
        injection heq with h4
        injection h4
      · rename_i items0 heq
        rw [hnode] at heq
        injection heq with h4
        injection h4

/-- C8: for the structural transform of src/esi/utils.py (munchify and
unmunchify, the two values of the munch flag of mgo), termination holds
for every closed input heap admitting a tuple rank, which every Python
object graph does; the sharing half of the claim, however, holds only
when no reference cycle of the input passes through a tuple: under that
condition a previously converted input address converts again to the
identical output address with the state unchanged, even across
intervening conversion work, and the converted self-reference field of
a self-referential mapping points back to the converted mapping
itself. The pre phase of the source converts the items of a tuple
before registering the tuple in the seen table, so a tuple lying on a
reference cycle is converted twice and the universal sharing statement
of the claim fails; see the counterexample. -/
theorem c8_structural_transform (heap : List (Nat × INode)) (b : Bool)
    (rk : Nat → Nat) (R : Nat) :
    (ClosedHeap heap → TupleRanked heap rk R →
      ∀ f t st, TaskAddrOK heap t → taskMeasure heap rk R t st < f →
        (mgo heap b f t st).isSome) ∧
    (RankSafe heap rk →
      ∀ f₁ f₂ f₃ t x st o st₁ r st₂ o' st₃,
        mgo heap b f₁ (MTask.conv x) st = some (o, st₁) →
        mgo heap b f₂ t st₁ = some (r, st₂) →
        mgo heap b f₃ (MTask.conv x) st₂ = some (o', st₃) →
        o' = o ∧ st₃ = st₂) ∧
    (RankSafe heap rk →
      ∀ a k fields, alGet heap a = some (INode.mapN fields) →
        alGet fields k = some a → (fields.map Prod.fst).Nodup →
        ∀ f o st', mgo heap b f (MTask.conv a) mstate0 = some (o, st') →
          ∃ bo flds, alGet st'.out o = some (ONode.mapN bo flds) ∧
            alGet flds k = some o) := by
  refine ⟨fun hc ht f t st hta hm => mgo_total heap b rk R hc ht f t st hta hm,
    fun hsafe f₁ f₂ f₃ t x st o st₁ r st₂ o' st₃ h₁ h₂ h₃ => ?_,
    fun hsafe a k fields hnode hfk hnd f o st' h =>
      mgo_self_ref heap b rk hsafe a k fields hnode hfk hnd f o st' h⟩
  have hx₁ : alGet st₁.seen x = some o :=
    mgo_conv_registers heap b rk hsafe f₁ x st o st₁ h₁
  have hx₂ : alGet st₂.seen x = some o :=
    mgo_seenLe heap b rk hsafe f₂ t st₁ r st₂ h₂ x o hx₁
  exact mgo_conv_cached heap b f₃ x st₂ o o' st₃ hx₂ h₃

/-- C8 counterexample: on the closed input heap whose tuple (address 0)
lies on a reference cycle through a mapping (address 1) and a list
(address 2), munchify converts the root 0 to the output address 3,
while the converted list (output address 1) holds 2, a second and
distinct conversion of the same input 0 left stale by the pre phase;
the seen table records both conversions of 0, the later binding
shadowing the earlier, so the converted self-reference is not the same
object as the converted container and the universal sharing statement
of the claim fails. -/
theorem c8_counterexample :
    ClosedHeap c8CycleHeap ∧
    mgo c8CycleHeap true 12 (MTask.conv 0) mstate0
      = some (3,
        { seen := [(0, 3), (0, 2), (2, 1), (1, 0)]
          out := [(0, ONode.mapN true [("l", 1)]), (1, ONode.listN [2]),
            (2, ONode.tupN [0]), (3, ONode.tupN [0])]
          next := 4 }) ∧
    (2 : Nat) ≠ 3 := by
  refine ⟨by unfold ClosedHeap; decide, by decide, by decide⟩

/-- C8 witness: the concrete self-referential mapping of c8SelfHeap
terminates at fuel 14, converts the already-seen addresses 0 and 1 to
their recorded outputs with the state unchanged, and binds the output
field self of the converted mapping back to the converted mapping
itself. -/
theorem c8_structural_transform_witness :
    (mgo c8SelfHeap true 14 (MTask.conv 0) mstate0).isSome ∧
    ((0 : Nat) = 0 ∧ c8StateA = c8StateA) ∧
    (∃ bo flds, alGet c8StateA.out 0 = some (ONode.mapN bo flds) ∧
      alGet flds "self" = some 0) := by
  have hT : TupleRanked c8SelfHeap (fun _ => 0) 0 := by
    constructor
    · intro a _
      exact Nat.le_refl 0
    · intro p hp items he c hc
      simp only [c8SelfHeap, List.mem_cons] at hp
      rcases hp with h1 | h1 | h1
      · rw [h1] at he
        simp at he
      · rw [h1] at he
        simp at he
      · simp at h1
  have hS : RankSafe c8SelfHeap (fun _ => 0) := by
    intro p hp c hc
    simp only [c8SelfHeap, List.mem_cons] at hp
    rcases hp with h1 | h1 | h1
    · subst h1
      exact Nat.le_refl 0
    · subst h1
      exact Nat.le_refl 0
    · simp at h1
  refine ⟨?_, ?_, ?_⟩
  · exact (c8_structural_transform c8SelfHeap true (fun _ => 0) 0).1
      (by unfold ClosedHeap; decide) hT 14 (MTask.conv 0) mstate0
      (by show (0 : Nat) ∈ heapKeys c8SelfHeap; decide) (by decide)
  · exact (c8_structural_transform c8SelfHeap true (fun _ => 0) 0).2.1 hS
      14 1 1 (MTask.conv 1) 0 mstate0 0 c8StateA 1 c8StateA 0 c8StateA
      (by decide) (by decide) (by decide)
  · exact (c8_structural_transform c8SelfHeap true (fun _ => 0) 0).2.2 hS
      0 "self" [("self", 0), ("v", 1)] (by decide) (by decide) (by decide)
      14 0 c8StateA (by decide)
